import Mathlib

/-!
# Measurement session controller (`src/pages/MeasurementPage.jsx`)

A shallow embedding of the stateful logic of the `MeasurementPage` component:
the step machine (`handleNextStep`), the ROM tracking effect, the force capture
effect, the countdown effect, `startStrengthTestCountdown` and `handleEndTest`.

Conventions of the embedding

* React state variables and refs are fields of `State`; props delivered by the
  parent (`liveRomValue`, `liveForceDataPoints`) are fields as well.
* JavaScript numbers are rationals for sensor values (every finite double is
  one) and integers for timestamps (epoch milliseconds). Comparison and
  `Math.max` are exact on doubles and are the ones of the rationals; the
  double-precision `+` and `/` of the average are parameters (`NumOps`), since
  their rounding is not modelled.
* `Date.now()` is an input: every event carries the clock value read while it
  is processed.
* An effect runs after a render exactly when one of its dependencies differs
  from the previous render; `settle` repeats renders until no effect is due.
-/

namespace MeasurementPage

/-! ## Data model -/

/-- A force sample as pushed by the parent: `{ timestamp, value }`. -/
structure Sample where
  timestamp : Int
  value : ℚ
deriving DecidableEq

/-- A force point as stored by the page: `{ ...p, isRelevant }`. -/
structure ForcePoint where
  timestamp : Int
  value : ℚ
  isRelevant : Bool
deriving DecidableEq

/-- The component state: `useState` cells, `useRef` cells and the props that
the effects depend on. `liveForceId` stands for the identity of the
`liveForceDataPoints` array (a new array on every delivery), and
`intervalActive` records whether the countdown effect currently holds a live
`setInterval`. -/
structure State where
  step : Nat
  timer : Int
  strengthTestActive : Bool
  showStartStrengthButton : Bool
  currentMeasurementPhaseData : List ForcePoint
  strengthTestData : List ForcePoint
  strengthTestStartTime : Option Int
  strengthTestEndTime : Option Int
  initialRomValue : Option ℚ
  maxRomValue : Option ℚ
  finalRomValue : Option ℚ
  liveRomValue : Option ℚ
  liveForceDataPoints : List Sample
  liveForceId : Nat
  intervalActive : Bool
deriving DecidableEq

/-- The arguments `handleEndTest` passes to `updateResults`. -/
structure Results where
  rom : ℚ
  strengthMax : ℚ
  strengthAvg : ℚ
  samples : List ForcePoint
  isBaselineSetting : Bool
deriving DecidableEq

/-- JavaScript relational comparison against a ref that may hold `null`:
`null` converts to `0`. -/
def refNum (r : Option Int) : Int := r.getD 0

/-- The window test
`p.timestamp >= strengthTestStartTimeRef.current && p.timestamp <= strengthTestEndTimeRef.current`. -/
def inWindow (start stop : Option Int) (ts : Int) : Bool :=
  decide (refNum start ≤ ts) && decide (ts ≤ refNum stop)

/-! ## Session start -/

/-- State after mounting: the `useState`/`useRef` initial values, with the
effects of the first commit run. The mount effect empties the buffer and the
live feeds; the ROM effect, in step 1 with no initial value stored, stores the
live ROM value `rom0` the parent supplies at that time as `initialRomValue`
(nothing when it is null); the other two effects find no capture active. -/
def initialState (rom0 : Option ℚ) : State :=
  { step := 1
    timer := 3
    strengthTestActive := false
    showStartStrengthButton := false
    currentMeasurementPhaseData := []
    strengthTestData := []
    strengthTestStartTime := none
    strengthTestEndTime := none
    initialRomValue := rom0
    maxRomValue := none
    finalRomValue := none
    liveRomValue := rom0
    liveForceDataPoints := []
    liveForceId := 0
    intervalActive := false }

/-! ## Effects -/

/-- The ROM tracking effect (lines 53-67). -/
def romEffect (s : State) : State :=
  match s.liveRomValue with
  | none => s
  | some v =>
    let s1 := if s.step = 1 ∧ s.initialRomValue = none then
        { s with initialRomValue := some v } else s
    let s2 := if 2 ≤ s.step ∧ s.step ≤ 4 then
        { s1 with maxRomValue :=
            match s1.maxRomValue with
            | none => some v
            | some prev => some (max prev v) }
      else s1
    if s.step = 5 then { s2 with finalRomValue := some v } else s2

/-- One iteration of the `forEach` body of the force capture effect
(lines 75-79): push the point when it is inside the window and no buffered
point has its timestamp. -/
def capturePoint (start stop : Option Int) (buf : List ForcePoint) (p : ForcePoint) :
    List ForcePoint :=
  if inWindow start stop p.timestamp then
    if (buf.find? (fun ap => decide (ap.timestamp = p.timestamp))).isSome then buf
    else buf ++ [p]
  else buf

/-- The `map` of line 71: `{ ...p, isRelevant: true }`. -/
def markRelevant (p : Sample) : ForcePoint :=
  { timestamp := p.timestamp, value := p.value, isRelevant := true }

/-- The force capture effect (lines 69-85). -/
def forceEffect (s : State) : State :=
  if s.strengthTestActive then
    let updatedLivePoints := s.liveForceDataPoints.map markRelevant
    { s with
      currentMeasurementPhaseData := updatedLivePoints
      strengthTestData :=
        updatedLivePoints.foldl
          (capturePoint s.strengthTestStartTime s.strengthTestEndTime) s.strengthTestData }
  else
    { s with currentMeasurementPhaseData := [] }

/-- The countdown effect (lines 87-101), run with clock reading `now`. The
cleanup of the previous run has cleared any interval; a new one is set only in
the first branch. -/
def countdownEffect (now : Int) (s : State) : State :=
  if s.strengthTestActive ∧ 0 < s.timer then
    { s with intervalActive := true }
  else if s.strengthTestActive ∧ s.timer = 0 then
    { s with
      intervalActive := false
      strengthTestEndTime := some now
      strengthTestActive := false
      showStartStrengthButton := false
      step := 4 }
  else
    { s with intervalActive := false }

/-- Dependencies `[liveRomValue, step, initialRomValue]`. -/
def romDeps (s : State) : Option ℚ × Nat × Option ℚ :=
  (s.liveRomValue, s.step, s.initialRomValue)

/-- Dependencies `[liveForceDataPoints, strengthTestActive]`, the array compared
by identity. -/
def forceDeps (s : State) : Nat × Bool :=
  (s.liveForceId, s.strengthTestActive)

/-- Dependencies `[strengthTestActive, timer, toast]` (`toast` is stable). -/
def countdownDeps (s : State) : Bool × Int :=
  (s.strengthTestActive, s.timer)

/-- The effects of one commit: each effect whose dependencies changed between
the previous render `prev` and the current render `cur` runs, in declaration
order. Every effect reads its closure values from the render `cur`; the
effects write disjoint state, so threading the state is the same. -/
def commit (now : Int) (prev cur : State) : State :=
  let s1 := if romDeps prev = romDeps cur then cur else romEffect cur
  let s2 := if forceDeps prev = forceDeps cur then s1 else forceEffect s1
  if countdownDeps prev = countdownDeps cur then s2 else countdownEffect now s2

/-- Whether no effect is due between two renders. -/
def depsEqual (prev cur : State) : Bool :=
  decide (romDeps prev = romDeps cur) && decide (forceDeps prev = forceDeps cur)
    && decide (countdownDeps prev = countdownDeps cur)

/-- Render and commit until no effect is due, at most `fuel` commits. -/
def settle (now : Int) : Nat → State → State → State
  | 0, _, cur => cur
  | fuel + 1, prev, cur =>
    if depsEqual prev cur then cur else settle now fuel cur (commit now prev cur)

/-! ## Handlers -/

/-- The function `handleNextStep` (lines 103-117). -/
def handleNextStep (s : State) : State :=
  if s.step = 1 then { s with step := 2 }
  else if s.step = 2 then { s with step := 3, showStartStrengthButton := true }
  else if s.step = 4 then { s with step := 5 }
  else if s.step < 5 then { s with step := s.step + 1 }
  else s

/-- The function `startStrengthTestCountdown` (lines 119-127); `t0` and `t1` are
the two successive `Date.now()` readings. -/
def startStrengthTestCountdown (t0 t1 : Int) (s : State) : State :=
  { s with
    strengthTestData := []
    strengthTestStartTime := some t0
    strengthTestEndTime := some (t1 + 3000)
    strengthTestActive := true
    showStartStrengthButton := false
    timer := 3 }

/-- The interval callback `setTimer(prev => prev - 1)`; it exists only while the
countdown effect holds an interval. -/
def tick (s : State) : State :=
  if s.intervalActive then { s with timer := s.timer - 1 } else s

/-- The two double-precision operations `handleEndTest` applies to sample
values: the `+` of the `reduce` in line 146 and the `/` of line 147. Their
IEEE-754 rounding is not modelled: they are parameters, and what is proved of
`handleEndTest` holds for every choice of them. -/
structure NumOps where
  add : ℚ → ℚ → ℚ
  div : ℚ → ℚ → ℚ

/-- The operations without rounding error, for evaluating concrete sessions. -/
def exactOps : NumOps :=
  { add := fun a b => a + b, div := fun a b => a / b }

/-- The call `Number.prototype.toFixed(2)` followed by `parseFloat`, applied to
the exact value of the double it is given: the nearest multiple of 1/100 of that
value, a tie going away from zero (the decimal the string denotes stands for
the double `parseFloat` returns). -/
def toFixed2 (x : ℚ) : ℚ :=
  if x < 0 then -(((⌊(-x) * 100 + 1 / 2⌋ : ℤ) : ℚ) / 100)
  else ((⌊x * 100 + 1 / 2⌋ : ℤ) : ℚ) / 100

/-- The call `Math.max(...xs)` for a non-empty argument list. The source calls
it only under `length > 0`; the empty case (`-Infinity` in JavaScript) has no
rational value and is given as `0`. -/
def mathMax : List ℚ → ℚ
  | [] => 0
  | x :: xs => xs.foldl max x

/-- The values `relevantStrengthPoints` of lines 140-142. -/
def relevantStrengthPoints (s : State) : List ℚ :=
  ((s.strengthTestData.filter
      (fun p => inWindow s.strengthTestStartTime s.strengthTestEndTime p.timestamp)).map
    (fun p => p.value))

/-- The function `handleEndTest` (lines 129-158): the arguments of the
`updateResults` call. -/
def handleEndTest (ops : NumOps) (isBaselineSetting : Bool) (s : State) : Results :=
  let calculatedRom : ℚ :=
    match s.maxRomValue with
    | some m => m
    | none => match s.liveRomValue with
      | some v => v
      | none => 90
  let rel : List ℚ := if 0 < s.strengthTestData.length then relevantStrengthPoints s else []
  let maxStrength : ℚ := if 0 < rel.length then mathMax rel else 0
  let avgStrength : ℚ :=
    if 0 < rel.length then
      ops.div (rel.foldl (fun acc val => ops.add acc val) 0) rel.length
    else 0
  { rom := calculatedRom
    strengthMax := toFixed2 maxStrength
    strengthAvg := toFixed2 avgStrength
    samples := s.strengthTestData.map (fun p =>
      { p with isRelevant :=
          inWindow s.strengthTestStartTime s.strengthTestEndTime p.timestamp })
    isBaselineSetting := isBaselineSetting }

/-! ## Events and runs -/

/-- What can happen to the mounted page: a new live ROM value, a new live force
array, an interval callback, a click on the step button, a click on the
strength button (with the second `Date.now()` reading of that handler). -/
inductive Event where
  | angle (v : Option ℚ)
  | force (pts : List Sample)
  | tick
  | nextStep
  | startStrength (t1 : Int)
deriving DecidableEq

/-- The state change of the event itself, before effects run. -/
def applyEvent (now : Int) (s : State) : Event → State
  | .angle v => { s with liveRomValue := v }
  | .force pts => { s with liveForceDataPoints := pts, liveForceId := s.liveForceId + 1 }
  | .tick => tick s
  | .nextStep => handleNextStep s
  | .startStrength t1 => startStrengthTestCountdown now t1 s

/-- One event at clock reading `now`, followed by the effects it makes due. -/
def next (s : State) (e : Int × Event) : State :=
  settle e.1 3 s (applyEvent e.1 s e.2)

/-- A session: events processed in order from a state. -/
def run (s : State) (evs : List (Int × Event)) : State :=
  evs.foldl next s

/-- The controls the page renders (lines 283-314): the step button in steps 1,
2 and 4, the strength button in step 3 while `showStartStrengthButton`; feed
deliveries and interval callbacks are not controls. -/
def offered (s : State) : Event → Bool
  | .nextStep => decide (s.step = 1 ∨ s.step = 2 ∨ s.step = 4)
  | .startStrength _ => decide (s.step = 3) && s.showStartStrengthButton
  | _ => true

/-- Every event of the run is one the page offers in the state it meets. -/
def offeredRun : State → List (Int × Event) → Bool
  | _, [] => true
  | s, e :: evs => offered s e.2 && offeredRun (next s e) evs

/-- What the page does with a trigger: a click reaches its handler only through
the button the page renders for it (lines 283-307); where the page renders no
such button, no handler runs. -/
def dispatch (s : State) (e : Int × Event) : State :=
  if offered s e.2 then next s e else s

/-! ## Spec-side vocabulary used in the statements -/

/-- The timestamps held by a buffer, in order. -/
def timestamps (buf : List ForcePoint) : List Int :=
  buf.map (fun p => p.timestamp)

/-- Every buffered point lies in the interval currently held by the two refs. -/
def bufferInWindow (s : State) : Prop :=
  ∀ p ∈ s.strengthTestData,
    inWindow s.strengthTestStartTime s.strengthTestEndTime p.timestamp = true

/-- An event that neither starts a capture nor delivers a non-null ROM value. -/
def quiet : Event → Bool
  | .startStrength _ => false
  | .angle (some _) => false
  | _ => true

/-- An event other than a click on the strength button. -/
def notStart : Event → Bool
  | .startStrength _ => false
  | _ => true

/-! ## Auxiliary definitions for the statements and proofs -/

/-- The state between the force effect and the countdown effect of a commit. -/
def beforeCountdown (prev cur : State) : State :=
  let s1 := if romDeps prev = romDeps cur then cur else romEffect cur
  if forceDeps prev = forceDeps cur then s1 else forceEffect s1

/-- Whether the countdown effect of this commit performs the expiry. -/
def expires (prev cur : State) : Prop :=
  countdownDeps prev ≠ countdownDeps cur ∧ cur.strengthTestActive = true ∧ cur.timer = 0

instance (prev cur : State) : Decidable (expires prev cur) := by
  unfold expires; infer_instance

/-- The state of a session in which no capture was started and no live ROM
value arrived. -/
def idleState (s : State) : Prop :=
  s.strengthTestData = [] ∧ s.maxRomValue = none ∧ s.liveRomValue = none ∧
    s.strengthTestActive = false

/-- A session of offered clicks whose third interval callback reads a clock
value (3800) earlier than the timestamp of a buffered sample (3900):
`Date.now()` is wall-clock time. -/
def clockBackRun : List (Int × Event) :=
  [(0, .nextStep), (10, .nextStep), (1000, .startStrength 1000), (2000, .tick), (3000, .tick),
   (3900, .force [⟨3900, 10⟩]), (3800, .tick), (3850, .nextStep)]

/-- The scenario of the specification: three angle values over steps 1 to 3 and
three force samples inside the capture window. -/
def scenarioRun : List (Int × Event) :=
  [(0, .angle (some 5)), (10, .nextStep), (20, .angle (some 90)), (30, .nextStep),
   (40, .angle (some 95)), (1000, .startStrength 1000),
   (1100, .force [⟨1100, 10⟩]), (2000, .tick),
   (2500, .force [⟨1100, 10⟩, ⟨2500, 25⟩]), (3000, .tick),
   (3900, .force [⟨1100, 10⟩, ⟨2500, 25⟩, ⟨3900, 18⟩]), (4000, .tick), (4100, .nextStep)]

/-- A rendered state in which no countdown effect is due: an active capture has
a positive timer and a live interval, and an interval is live only then. -/
def settled (s : State) : Prop :=
  (s.strengthTestActive = true → 0 < s.timer ∧ s.intervalActive = true) ∧
  (s.intervalActive = true → s.strengthTestActive = true)

/-- The render in which the countdown effect finds the timer at zero. -/
def expiring (s : State) : Prop :=
  s.strengthTestActive = true ∧ s.timer = 0

instance (s : State) : Decidable (expiring s) := by
  unfold expiring; infer_instance

/-- What an event leaves of the countdown state, in terms of the render `cur`
the handler produced at clock reading `now`. -/
def afterCountdown (now : Int) (cur s1 : State) : Prop :=
  s1.timer = cur.timer ∧
  s1.strengthTestActive = (if expiring cur then false else cur.strengthTestActive) ∧
  s1.step = (if expiring cur then 4 else cur.step) ∧
  s1.strengthTestEndTime = (if expiring cur then some now else cur.strengthTestEndTime) ∧
  s1.strengthTestStartTime = cur.strengthTestStartTime ∧
  s1.liveRomValue = cur.liveRomValue

/-- While a capture is active the page is in step 3. -/
def captureInStep3 (s : State) : Prop :=
  s.strengthTestActive = true → s.step = 3

/-- The number of events of a session at which the capture goes from active to
inactive, that is, at which the countdown effect performs the transition to
step 4. -/
def expiryCount : State → List (Int × Event) → Nat
  | _, [] => 0
  | s, e :: evs =>
    (if s.strengthTestActive && !(next s e).strengthTestActive then 1 else 0)
      + expiryCount (next s e) evs

/-- The number of interval callbacks among the events. -/
def tickCount (evs : List (Int × Event)) : Nat :=
  evs.countP (fun e => decide (e.2 = Event.tick))

/-- Every event of the session that ends a capture reads a clock value that is
not below the end time scheduled for that capture. -/
def expiryClockOk : State → List (Int × Event) → Bool
  | _, [] => true
  | s, e :: evs =>
    (if s.strengthTestActive && !(next s e).strengthTestActive then
        decide (refNum s.strengthTestEndTime ≤ e.1) else true)
      && expiryClockOk (next s e) evs

/-- What holds of the buffer after a click on the strength button at clock
readings `t0`, `t1`, while no further click on it occurs: an active capture has
the window of that click, every buffered point lies in that window and comes
from a live array known to `K`, and so does the current live array. -/
def restartInv (t0 t1 : Int) (K : Sample → Prop) (s : State) : Prop :=
  (s.strengthTestActive = true →
    s.strengthTestStartTime = some t0 ∧ s.strengthTestEndTime = some (t1 + 3000)) ∧
  (∀ q ∈ s.strengthTestData, t0 ≤ q.timestamp ∧ q.timestamp ≤ t1 + 3000 ∧
    ∃ p, K p ∧ markRelevant p = q) ∧
  (∀ p ∈ s.liveForceDataPoints, K p)

/-- A session of offered events in which 100 is delivered in step 1 and is still
current at the click to step 2, then 50 and 70 are delivered in steps 2 and 3. -/
def carryRun : List (Int × Event) :=
  [(0, .angle (some 100)), (1, .nextStep), (2, .angle (some 50)), (3, .nextStep),
   (4, .angle (some 70))]

/-- A first capture, started at clock reading 1000, that buffers a sample stamped
4000 and expires at clock reading 4000. -/
def restartRun : List (Int × Event) :=
  [(1000, .startStrength 1000), (2000, .tick), (3000, .tick),
   (4000, .force [⟨4000, 10⟩]), (4000, .tick)]

/-- The updater of line 60, `prev => prev === null ? live : Math.max(prev, live)`. -/
def bump (m : Option ℚ) (v : ℚ) : Option ℚ :=
  match m with
  | none => some v
  | some prev => some (max prev v)

/-- The live ROM value a render offers to the running maximum: the current value
when the step is 2, 3 or 4. -/
def seen (s : State) : Option ℚ :=
  if 2 ≤ s.step ∧ s.step ≤ 4 then s.liveRomValue else none

/-- The updater applied to an optional value. -/
def bumpSeen (m : Option ℚ) (o : Option ℚ) : Option ℚ :=
  match o with
  | none => m
  | some v => bump m v

/-- The live ROM values current after each event of a session while the step is
2, 3 or 4, in order. -/
def romSeen : State → List (Int × Event) → List ℚ
  | _, [] => []
  | s, e :: evs => (seen (next s e)).toList ++ romSeen (next s e) evs

/-- The ROM values delivered by the feed while the step is 2, 3 or 4, in order. -/
def romDelivered : State → List (Int × Event) → List ℚ
  | _, [] => []
  | s, e :: evs =>
    (match e.2 with
      | .angle (some v) => if 2 ≤ s.step ∧ s.step ≤ 4 then [v] else []
      | _ => []) ++ romDelivered (next s e) evs

/-- The live ROM values current right after the click on the step button that
takes the page from step 1 to step 2, in order. -/
def romEntered : State → List (Int × Event) → List ℚ
  | _, [] => []
  | s, e :: evs =>
    (if s.step = 1 ∧ e.2 = Event.nextStep then (next s e).liveRomValue.toList else [])
      ++ romEntered (next s e) evs

/-- The largest member of a list, `none` for the empty list. -/
def listMax : List ℚ → Option ℚ
  | [] => none
  | x :: xs => some (xs.foldl max x)

/-- The running maximum already accounts for the value the state offers. -/
def accounted (s : State) : Prop :=
  bumpSeen s.maxRomValue (seen s) = s.maxRomValue

/-! ## Basic facts about the effects -/

theorem romEffect_frame (s : State) :
    (romEffect s).step = s.step ∧ (romEffect s).timer = s.timer ∧
    (romEffect s).strengthTestActive = s.strengthTestActive ∧
    (romEffect s).showStartStrengthButton = s.showStartStrengthButton ∧
    (romEffect s).strengthTestData = s.strengthTestData ∧
    (romEffect s).strengthTestStartTime = s.strengthTestStartTime ∧
    (romEffect s).strengthTestEndTime = s.strengthTestEndTime ∧
    (romEffect s).liveRomValue = s.liveRomValue ∧
    (romEffect s).liveForceDataPoints = s.liveForceDataPoints ∧
    (romEffect s).liveForceId = s.liveForceId ∧
    (romEffect s).intervalActive = s.intervalActive := by
  unfold romEffect
  split
  · simp
  · dsimp only
    split_ifs <;> simp

theorem forceEffect_frame (s : State) :
    (forceEffect s).step = s.step ∧ (forceEffect s).timer = s.timer ∧
    (forceEffect s).strengthTestActive = s.strengthTestActive ∧
    (forceEffect s).showStartStrengthButton = s.showStartStrengthButton ∧
    (forceEffect s).strengthTestStartTime = s.strengthTestStartTime ∧
    (forceEffect s).strengthTestEndTime = s.strengthTestEndTime ∧
    (forceEffect s).initialRomValue = s.initialRomValue ∧
    (forceEffect s).maxRomValue = s.maxRomValue ∧
    (forceEffect s).finalRomValue = s.finalRomValue ∧
    (forceEffect s).liveRomValue = s.liveRomValue ∧
    (forceEffect s).liveForceDataPoints = s.liveForceDataPoints ∧
    (forceEffect s).liveForceId = s.liveForceId ∧
    (forceEffect s).intervalActive = s.intervalActive := by
  unfold forceEffect
  split_ifs <;> simp

theorem countdownEffect_frame (now : Int) (s : State) :
    (countdownEffect now s).timer = s.timer ∧
    (countdownEffect now s).strengthTestData = s.strengthTestData ∧
    (countdownEffect now s).strengthTestStartTime = s.strengthTestStartTime ∧
    (countdownEffect now s).initialRomValue = s.initialRomValue ∧
    (countdownEffect now s).maxRomValue = s.maxRomValue ∧
    (countdownEffect now s).finalRomValue = s.finalRomValue ∧
    (countdownEffect now s).liveRomValue = s.liveRomValue ∧
    (countdownEffect now s).liveForceDataPoints = s.liveForceDataPoints ∧
    (countdownEffect now s).liveForceId = s.liveForceId := by
  unfold countdownEffect
  split_ifs <;> simp

/-- A property kept by each of the three effects is kept by a commit. -/
theorem commit_preserves (P : State → Prop) (now : Int)
    (hrom : ∀ s, P s → P (romEffect s))
    (hforce : ∀ s, P s → P (forceEffect s))
    (hcd : ∀ s, P s → P (countdownEffect now s))
    (prev cur : State) (h : P cur) : P (commit now prev cur) := by
  unfold commit
  dsimp only
  have h1 : P (if romDeps prev = romDeps cur then cur else romEffect cur) := by
    split_ifs
    · exact h
    · exact hrom _ h
  have h2 : P (if forceDeps prev = forceDeps cur then
      (if romDeps prev = romDeps cur then cur else romEffect cur)
      else forceEffect (if romDeps prev = romDeps cur then cur else romEffect cur)) := by
    split_ifs at h1 ⊢
    all_goals first | exact h1 | exact hforce _ h1
  split_ifs at h2 ⊢
  all_goals first | exact h2 | exact hcd _ h2

/-- A property kept by each of the three effects is kept by `settle`. -/
theorem settle_preserves (P : State → Prop) (now : Int)
    (hrom : ∀ s, P s → P (romEffect s))
    (hforce : ∀ s, P s → P (forceEffect s))
    (hcd : ∀ s, P s → P (countdownEffect now s))
    (fuel : Nat) (prev cur : State) (h : P cur) : P (settle now fuel prev cur) := by
  induction fuel generalizing prev cur with
  | zero => simpa [settle] using h
  | succ n ih =>
    unfold settle
    split_ifs
    · exact h
    · exact ih _ _ (commit_preserves P now hrom hforce hcd prev cur h)

/-! ## The capture loop -/

/-- The buffer search of line 76 succeeds exactly when the timestamp is held. -/
theorem find_isSome_iff (buf : List ForcePoint) (t : Int) :
    (buf.find? (fun ap => decide (ap.timestamp = t))).isSome = true ↔ t ∈ timestamps buf := by
  simp [timestamps, List.find?_isSome]

/-- One iteration either leaves the buffer or appends the point, and appends
only a point inside the window whose timestamp is new. -/
theorem capturePoint_cases (start stop : Option Int) (buf : List ForcePoint) (p : ForcePoint) :
    capturePoint start stop buf p = buf ∨
    (capturePoint start stop buf p = buf ++ [p] ∧ inWindow start stop p.timestamp = true ∧
      p.timestamp ∉ timestamps buf) := by
  unfold capturePoint
  by_cases hw : inWindow start stop p.timestamp = true
  · by_cases hf : (buf.find? (fun ap => decide (ap.timestamp = p.timestamp))).isSome = true
    · left; simp [hw, hf]
    · right
      refine ⟨by simp [hw, hf], hw, ?_⟩
      rw [← find_isSome_iff]; exact hf
  · left; simp [hw]

/-- The capture loop extends the buffer by points of the scanned list that lie
inside the window. -/
theorem capture_append (start stop : Option Int) (pts buf : List ForcePoint) :
    ∃ added, pts.foldl (capturePoint start stop) buf = buf ++ added ∧
      ∀ q ∈ added, q ∈ pts ∧ inWindow start stop q.timestamp = true := by
  induction pts generalizing buf with
  | nil => exact ⟨[], by simp⟩
  | cons p pts ih =>
    rw [List.foldl_cons]
    obtain ⟨added, hadd, hq⟩ := ih (capturePoint start stop buf p)
    rcases capturePoint_cases start stop buf p with h | ⟨h, hw, _⟩
    · refine ⟨added, by rw [hadd, h], ?_⟩
      intro q hqa
      exact ⟨List.mem_cons_of_mem _ (hq q hqa).1, (hq q hqa).2⟩
    · refine ⟨p :: added, by rw [hadd, h]; simp, ?_⟩
      intro q hqa
      rcases List.mem_cons.mp hqa with rfl | hqa
      · exact ⟨List.mem_cons_self _ _, hw⟩
      · exact ⟨List.mem_cons_of_mem _ (hq q hqa).1, (hq q hqa).2⟩

/-- The capture loop keeps the buffered timestamps pairwise distinct. -/
theorem capture_nodup (start stop : Option Int) (pts buf : List ForcePoint)
    (h : (timestamps buf).Nodup) :
    (timestamps (pts.foldl (capturePoint start stop) buf)).Nodup := by
  induction pts generalizing buf with
  | nil => simpa using h
  | cons p pts ih =>
    rw [List.foldl_cons]
    apply ih
    rcases capturePoint_cases start stop buf p with h1 | ⟨h1, _, hnew⟩
    · rw [h1]; exact h
    · rw [h1]
      simp only [timestamps, List.map_append, List.map_cons, List.map_nil] at hnew ⊢
      rw [List.nodup_append]
      refine ⟨h, by simp, ?_⟩
      intro a ha hb
      simp only [List.mem_singleton] at hb
      subst hb
      exact hnew ha

/-- The point the capture loop holds for a timestamp: the one already buffered,
otherwise the first one of the scanned list with that timestamp, provided the
timestamp is inside the window. -/
theorem capture_find (start stop : Option Int) (pts buf : List ForcePoint) (t : Int) :
    (pts.foldl (capturePoint start stop) buf).find? (fun ap => decide (ap.timestamp = t)) =
      match buf.find? (fun ap => decide (ap.timestamp = t)) with
      | some q => some q
      | none => if inWindow start stop t then pts.find? (fun ap => decide (ap.timestamp = t))
                else none := by
  induction pts generalizing buf with
  | nil =>
    simp only [List.foldl_nil, List.find?_nil]
    cases buf.find? (fun ap => decide (ap.timestamp = t)) <;> simp
  | cons p pts ih =>
    rw [List.foldl_cons, ih]
    rcases capturePoint_cases start stop buf p with h1 | ⟨h1, hw, hnew⟩
    · rw [h1]
      cases hb : buf.find? (fun ap => decide (ap.timestamp = t)) with
      | some q => rfl
      | none =>
        dsimp only
        by_cases hwt : inWindow start stop t = true
        · simp only [hwt, if_true]
          by_cases hpt : p.timestamp = t
          · exfalso
            -- the point was not pushed although it is in the window: its timestamp is held
            have hheld : t ∈ timestamps buf := by
              unfold capturePoint at h1
              rw [hpt] at h1
              simp only [hwt, if_true] at h1
              by_contra hcon
              rw [← find_isSome_iff] at hcon
              simp only [hcon] at h1
              simp at h1
            rw [← find_isSome_iff, hb] at hheld
            simp at hheld
          · simp [List.find?_cons, hpt]
        · simp [hwt]
    · rw [h1, List.find?_append]
      cases hb : buf.find? (fun ap => decide (ap.timestamp = t)) with
      | some q => simp
      | none =>
        by_cases hpt : p.timestamp = t
        · subst hpt
          simp [List.find?_cons, hw]
        · simp [List.find?_cons, hpt]

/-! ## What a commit changes -/

theorem romEffect_initial (s : State) :
    (romEffect s).initialRomValue =
      if s.step = 1 ∧ s.initialRomValue = none then s.liveRomValue else s.initialRomValue := by
  unfold romEffect
  split
  · rename_i h
    rw [h]
    split_ifs with h1
    · exact h1.2
    · rfl
  · rename_i v h
    dsimp only
    split_ifs <;> simp_all

theorem countdownEffect_active (now : Int) (s : State) :
    (countdownEffect now s).strengthTestActive =
      if s.strengthTestActive = true ∧ s.timer = 0 then false else s.strengthTestActive := by
  unfold countdownEffect
  split_ifs <;> simp_all

theorem countdownEffect_step (now : Int) (s : State) :
    (countdownEffect now s).step =
      if s.strengthTestActive = true ∧ s.timer = 0 then 4 else s.step := by
  unfold countdownEffect
  split_ifs <;> simp_all

theorem countdownEffect_end (now : Int) (s : State) :
    (countdownEffect now s).strengthTestEndTime =
      if s.strengthTestActive = true ∧ s.timer = 0 then some now else s.strengthTestEndTime := by
  unfold countdownEffect
  split_ifs <;> simp_all

theorem countdownEffect_interval (now : Int) (s : State) :
    (countdownEffect now s).intervalActive =
      decide (s.strengthTestActive = true ∧ 0 < s.timer) := by
  unfold countdownEffect
  split_ifs <;> simp_all

theorem commit_eq (now : Int) (prev cur : State) :
    commit now prev cur =
      if countdownDeps prev = countdownDeps cur then beforeCountdown prev cur
      else countdownEffect now (beforeCountdown prev cur) := rfl

theorem beforeCountdown_frame (prev cur : State) :
    (beforeCountdown prev cur).step = cur.step ∧
    (beforeCountdown prev cur).timer = cur.timer ∧
    (beforeCountdown prev cur).strengthTestActive = cur.strengthTestActive ∧
    (beforeCountdown prev cur).showStartStrengthButton = cur.showStartStrengthButton ∧
    (beforeCountdown prev cur).strengthTestStartTime = cur.strengthTestStartTime ∧
    (beforeCountdown prev cur).strengthTestEndTime = cur.strengthTestEndTime ∧
    (beforeCountdown prev cur).liveRomValue = cur.liveRomValue ∧
    (beforeCountdown prev cur).liveForceDataPoints = cur.liveForceDataPoints ∧
    (beforeCountdown prev cur).liveForceId = cur.liveForceId ∧
    (beforeCountdown prev cur).intervalActive = cur.intervalActive := by
  unfold beforeCountdown
  dsimp only
  have hr := romEffect_frame cur
  have hf1 := forceEffect_frame cur
  have hf2 := forceEffect_frame (romEffect cur)
  split_ifs <;> simp_all

theorem beforeCountdown_initial (prev cur : State) :
    (beforeCountdown prev cur).initialRomValue =
      if romDeps prev = romDeps cur then cur.initialRomValue
      else if cur.step = 1 ∧ cur.initialRomValue = none then cur.liveRomValue
      else cur.initialRomValue := by
  unfold beforeCountdown
  dsimp only
  have hf1 := (forceEffect_frame cur).2.2.2.2.2.2.1
  have hf2 := (forceEffect_frame (romEffect cur)).2.2.2.2.2.2.1
  have hr := romEffect_initial cur
  by_cases h1 : romDeps prev = romDeps cur <;> by_cases h2 : forceDeps prev = forceDeps cur
  · simp only [h1, h2, if_true]
  · simp only [h1, h2, if_true, if_false, hf1]
  · simp only [h1, h2, if_true, if_false, hr]
  · simp only [h1, h2, if_false, hf2, hr]

theorem commit_timer (now : Int) (prev cur : State) :
    (commit now prev cur).timer = cur.timer := by
  rw [commit_eq]
  split_ifs
  · exact (beforeCountdown_frame prev cur).2.1
  · rw [(countdownEffect_frame now _).1]; exact (beforeCountdown_frame prev cur).2.1

theorem commit_liveRom (now : Int) (prev cur : State) :
    (commit now prev cur).liveRomValue = cur.liveRomValue := by
  rw [commit_eq]
  split_ifs
  · exact (beforeCountdown_frame prev cur).2.2.2.2.2.2.1
  · rw [(countdownEffect_frame now _).2.2.2.2.2.2.1]
    exact (beforeCountdown_frame prev cur).2.2.2.2.2.2.1

theorem commit_liveForceId (now : Int) (prev cur : State) :
    (commit now prev cur).liveForceId = cur.liveForceId := by
  rw [commit_eq]
  split_ifs
  · exact (beforeCountdown_frame prev cur).2.2.2.2.2.2.2.2.1
  · rw [(countdownEffect_frame now _).2.2.2.2.2.2.2.2]
    exact (beforeCountdown_frame prev cur).2.2.2.2.2.2.2.2.1

theorem commit_active (now : Int) (prev cur : State) :
    (commit now prev cur).strengthTestActive =
      if expires prev cur then false else cur.strengthTestActive := by
  have hf := beforeCountdown_frame prev cur
  rw [commit_eq]
  unfold expires
  split_ifs with h1 h2 h3
  · exact absurd h1 h2.1
  · exact hf.2.2.1
  · rw [countdownEffect_active, hf.2.2.1, hf.2.1]; simp [h3.2]
  · rw [countdownEffect_active, hf.2.2.1, hf.2.1]
    have : ¬(cur.strengthTestActive = true ∧ cur.timer = 0) := fun h => h3 ⟨h1, h⟩
    simp [this]

theorem commit_step (now : Int) (prev cur : State) :
    (commit now prev cur).step = if expires prev cur then 4 else cur.step := by
  have hf := beforeCountdown_frame prev cur
  rw [commit_eq]
  unfold expires
  split_ifs with h1 h2 h3
  · exact absurd h1 h2.1
  · exact hf.1
  · rw [countdownEffect_step, hf.2.2.1, hf.2.1]; simp [h3.2]
  · rw [countdownEffect_step, hf.2.2.1, hf.2.1, hf.1]
    have : ¬(cur.strengthTestActive = true ∧ cur.timer = 0) := fun h => h3 ⟨h1, h⟩
    simp [this]

theorem commit_initial (now : Int) (prev cur : State) :
    (commit now prev cur).initialRomValue =
      if romDeps prev = romDeps cur then cur.initialRomValue
      else if cur.step = 1 ∧ cur.initialRomValue = none then cur.liveRomValue
      else cur.initialRomValue := by
  rw [commit_eq]
  by_cases h : countdownDeps prev = countdownDeps cur
  · rw [if_pos h]; exact beforeCountdown_initial prev cur
  · rw [if_neg h, (countdownEffect_frame now _).2.2.2.1]; exact beforeCountdown_initial prev cur

/-! ## Renders stop after two commits -/

/-- The commit that follows a commit performs no expiry. -/
theorem not_expires_after_commit (now : Int) (prev cur : State) :
    ¬ expires cur (commit now prev cur) := by
  intro h
  obtain ⟨hne, hact, _⟩ := h
  have ha := commit_active now prev cur
  have ht := commit_timer now prev cur
  by_cases he : expires prev cur
  · rw [if_pos he] at ha
    rw [ha] at hact
    exact Bool.noConfusion hact
  · rw [if_neg he] at ha
    apply hne
    simp only [countdownDeps, ha, ht]

/-- After one commit, a further commit changes no dependency of any effect. -/
theorem commit_stable (now : Int) (prev cur : State) :
    depsEqual (commit now prev cur) (commit now cur (commit now prev cur)) = true := by
  have hne := not_expires_after_commit now prev cur
  have ha := commit_active now cur (commit now prev cur)
  have hs := commit_step now cur (commit now prev cur)
  have ht := commit_timer now cur (commit now prev cur)
  have hl := commit_liveRom now cur (commit now prev cur)
  have hid := commit_liveForceId now cur (commit now prev cur)
  have hi := commit_initial now cur (commit now prev cur)
  rw [if_neg hne] at ha hs
  have hinit : (commit now cur (commit now prev cur)).initialRomValue
      = (commit now prev cur).initialRomValue := by
    rw [hi]
    by_cases h1 : romDeps cur = romDeps (commit now prev cur)
    · rw [if_pos h1]
    · rw [if_neg h1]
      by_cases h2 : (commit now prev cur).step = 1 ∧ (commit now prev cur).initialRomValue = none
      · rw [if_pos h2]
        exfalso
        have hs1 := commit_step now prev cur
        have hi1 := commit_initial now prev cur
        have hl1 := commit_liveRom now prev cur
        have hstep : (commit now prev cur).step = cur.step := by
          by_cases he : expires prev cur
          · rw [if_pos he] at hs1; rw [hs1] at h2; exact absurd h2.1 (by decide)
          · rw [if_neg he] at hs1; exact hs1
        have hinitne : (commit now prev cur).initialRomValue ≠ cur.initialRomValue := by
          intro heq
          apply h1
          simp only [romDeps, hl1, hstep, heq]
        by_cases h3 : romDeps prev = romDeps cur
        · rw [if_pos h3] at hi1; exact hinitne hi1
        · rw [if_neg h3] at hi1
          by_cases h4 : cur.step = 1 ∧ cur.initialRomValue = none
          · rw [if_pos h4] at hi1
            apply hinitne
            rw [h2.2, h4.2]
          · rw [if_neg h4] at hi1; exact hinitne hi1
      · rw [if_neg h2]
  simp only [depsEqual, romDeps, forceDeps, countdownDeps, ha, hs, ht, hl, hid, hinit,
    decide_True, Bool.and_self]

/-- The three ways `settle` with fuel 3 ends: no effect due; one commit; two
commits. In each the final render has no effect due. -/
theorem settle_cases (now : Int) (prev cur : State) :
    (depsEqual prev cur = true ∧ settle now 3 prev cur = cur) ∨
    (depsEqual prev cur = false ∧ depsEqual cur (commit now prev cur) = true ∧
      settle now 3 prev cur = commit now prev cur) ∨
    (depsEqual prev cur = false ∧ depsEqual cur (commit now prev cur) = false ∧
      settle now 3 prev cur = commit now cur (commit now prev cur)) := by
  by_cases h1 : depsEqual prev cur = true
  · left; exact ⟨h1, by simp [settle, h1]⟩
  · right
    have h1f : depsEqual prev cur = false := by simpa using h1
    by_cases h2 : depsEqual cur (commit now prev cur) = true
    · left; exact ⟨h1f, h2, by simp [settle, h1f, h2]⟩
    · right
      have h2f : depsEqual cur (commit now prev cur) = false := by simpa using h2
      refine ⟨h1f, h2f, ?_⟩
      simp [settle, h1f, h2f, commit_stable now prev cur]

/-- The render `settle` ends in has no effect due: the fuel is enough. -/
theorem settle_stable (now : Int) (prev cur : State) :
    ∀ n, settle now (n + 3) prev cur = settle now 3 prev cur := by
  intro n
  rcases settle_cases now prev cur with ⟨h1, h⟩ | ⟨h1, h2, h⟩ | ⟨h1, h2, h⟩
  · rw [h]; simp [settle, h1]
  · rw [h]; simp [settle, h1, h2]
  · rw [h]; simp [settle, h1, h2, commit_stable now prev cur]

/-! ## Aggregation -/

/-- The rounding of `toFixed(2)`: a multiple of 1/100 within 1/200 of the argument. -/
theorem toFixed2_spec (x : ℚ) :
    ∃ n : ℤ, toFixed2 x = (n : ℚ) / 100 ∧ |toFixed2 x - x| ≤ 1 / 200 := by
  unfold toFixed2
  by_cases hx : x < 0
  · rw [if_pos hx]
    refine ⟨-⌊(-x) * 100 + 1 / 2⌋, by push_cast; ring, ?_⟩
    have h1 := Int.floor_le ((-x) * 100 + 1 / 2)
    have h2 := Int.lt_floor_add_one ((-x) * 100 + 1 / 2)
    rw [abs_le]
    constructor <;> linarith
  · rw [if_neg hx]
    refine ⟨⌊x * 100 + 1 / 2⌋, rfl, ?_⟩
    have h1 := Int.floor_le (x * 100 + 1 / 2)
    have h2 := Int.lt_floor_add_one (x * 100 + 1 / 2)
    rw [abs_le]
    constructor <;> linarith

theorem foldl_max_spec (xs : List ℚ) (a : ℚ) :
    (xs.foldl max a ∈ a :: xs) ∧ ∀ y ∈ a :: xs, y ≤ xs.foldl max a := by
  induction xs generalizing a with
  | nil => simp
  | cons x xs ih =>
    rw [List.foldl_cons]
    obtain ⟨hmem, hle⟩ := ih (max a x)
    constructor
    · rcases List.mem_cons.mp hmem with h | h
      · rw [h]
        rcases max_choice a x with h' | h' <;> rw [h'] <;> simp
      · exact List.mem_cons_of_mem _ (List.mem_cons_of_mem _ h)
    · intro y hy
      rcases List.mem_cons.mp hy with h | h
      · rw [h]; exact le_trans (le_max_left a x) (hle _ (List.mem_cons_self _ _))
      · rcases List.mem_cons.mp h with h | h
        · rw [h]; exact le_trans (le_max_right a x) (hle _ (List.mem_cons_self _ _))
        · exact hle _ (List.mem_cons_of_mem _ h)

/-- On a non-empty list `Math.max` returns a member that bounds every member. -/
theorem mathMax_spec (xs : List ℚ) (h : xs ≠ []) :
    mathMax xs ∈ xs ∧ ∀ y ∈ xs, y ≤ mathMax xs := by
  cases xs with
  | nil => exact absurd rfl h
  | cons x xs => exact foldl_max_spec xs x

/-- The interval filter of `handleEndTest` keeps every value when the whole
buffer lies in the interval held by the refs. -/
theorem relevant_eq_all (s : State) (h : bufferInWindow s) :
    relevantStrengthPoints s = s.strengthTestData.map (fun p => p.value) := by
  unfold relevantStrengthPoints
  congr 1
  rw [List.filter_eq_self]
  exact h

theorem relevant_of_empty (s : State) (h : s.strengthTestData = []) :
    relevantStrengthPoints s = [] := by
  simp [relevantStrengthPoints, h]

/-- The list `handleEndTest` aggregates is `relevantStrengthPoints`, also when
the buffer is empty. -/
theorem handleEndTest_rel (s : State) :
    (if 0 < s.strengthTestData.length then relevantStrengthPoints s else [])
      = relevantStrengthPoints s := by
  split_ifs with h
  · rfl
  · have : s.strengthTestData = [] := by
      cases hb : s.strengthTestData with
      | nil => rfl
      | cons a l => rw [hb] at h; simp at h
    rw [relevant_of_empty s this]

/-! ## Lifting invariants to events and runs -/

theorem next_preserves (P : State → Prop) (s : State) (e : Int × Event)
    (hrom : ∀ s, P s → P (romEffect s))
    (hforce : ∀ s, P s → P (forceEffect s))
    (hcd : ∀ s, P s → P (countdownEffect e.1 s))
    (hev : P (applyEvent e.1 s e.2)) : P (next s e) :=
  settle_preserves P e.1 hrom hforce hcd 3 s _ hev

theorem run_preserves (P : State → Prop) (ok : Event → Prop)
    (hrom : ∀ s, P s → P (romEffect s))
    (hforce : ∀ s, P s → P (forceEffect s))
    (hcd : ∀ now s, P s → P (countdownEffect now s))
    (hev : ∀ now s e, ok e → P s → P (applyEvent now s e))
    (evs : List (Int × Event)) (s : State) (hs : P s) (hok : ∀ e ∈ evs, ok e.2) :
    P (run s evs) := by
  induction evs generalizing s with
  | nil => exact hs
  | cons e evs ih =>
    unfold run at ih ⊢
    rw [List.foldl_cons]
    apply ih
    · exact next_preserves P s e hrom hforce (hcd e.1)
        (hev e.1 s e.2 (hok e (List.mem_cons_self _ _)) hs)
    · intro e1 he1
      exact hok e1 (List.mem_cons_of_mem _ he1)

theorem run_append (s : State) (xs ys : List (Int × Event)) :
    run s (xs ++ ys) = run (run s xs) ys := by
  simp [run, List.foldl_append]

theorem run_cons (s : State) (e : Int × Event) (evs : List (Int × Event)) :
    run s (e :: evs) = run (next s e) evs := rfl

theorem idle_run (evs : List (Int × Event)) (h : ∀ e ∈ evs, quiet e.2 = true) :
    idleState (run (initialState none) evs) := by
  apply run_preserves idleState (fun e => quiet e = true)
  · intro s hs
    have : romEffect s = s := by unfold romEffect; rw [hs.2.2.1]
    rw [this]; exact hs
  · intro s hs
    obtain ⟨h1, h2, h3, h4⟩ := hs
    simp [idleState, forceEffect, h1, h2, h3, h4]
  · intro now s hs
    obtain ⟨h1, h2, h3, h4⟩ := hs
    simp [idleState, countdownEffect, h1, h2, h3, h4]
  · intro now s e he hs
    obtain ⟨h1, h2, h3, h4⟩ := hs
    cases e with
    | angle v =>
      cases v with
      | none => simp [idleState, applyEvent, h1, h2, h4]
      | some v => simp [quiet] at he
    | force pts => simp [idleState, applyEvent, h1, h2, h3, h4]
    | tick =>
      simp only [applyEvent, tick]
      split_ifs <;> simp [idleState, h1, h2, h3, h4]
    | nextStep =>
      simp only [applyEvent, handleNextStep]
      split_ifs <;> simp [idleState, h1, h2, h3, h4]
    | startStrength t1 => simp [quiet] at he
  · simp [idleState, initialState]
  · exact h

theorem toFixed2_zero : toFixed2 0 = 0 := by
  norm_num [toFixed2]

/-! ## Result aggregation (`handleEndTest`) -/

theorem handleEndTest_strengthMax (ops : NumOps) (b : Bool) (s : State) :
    (handleEndTest ops b s).strengthMax =
      toFixed2 (if 0 < (relevantStrengthPoints s).length then mathMax (relevantStrengthPoints s)
        else 0) := by
  simp only [handleEndTest, handleEndTest_rel]

theorem handleEndTest_strengthAvg (ops : NumOps) (b : Bool) (s : State) :
    (handleEndTest ops b s).strengthAvg =
      toFixed2 (if 0 < (relevantStrengthPoints s).length then
        ops.div ((relevantStrengthPoints s).foldl (fun acc val => ops.add acc val) 0)
          (relevantStrengthPoints s).length else 0) := by
  simp only [handleEndTest, handleEndTest_rel]

/-- The aggregation of `handleEndTest`, for every choice of the double-precision
operations: max = 0 and avg = 0 when no buffered sample lies in the interval
held by the refs; otherwise max is the largest value of the buffered samples
inside that interval, rounded by `toFixed(2)`, and avg is the rounding of the
computed mean. The rounding gives a multiple of 1/100 within 1/200. -/
theorem handleEndTest_aggregates (ops : NumOps) (b : Bool) (s : State) :
    (relevantStrengthPoints s = [] →
      (handleEndTest ops b s).strengthMax = 0 ∧ (handleEndTest ops b s).strengthAvg = 0) ∧
    (relevantStrengthPoints s ≠ [] →
      (∃ m ∈ relevantStrengthPoints s, (∀ x ∈ relevantStrengthPoints s, x ≤ m) ∧
        (handleEndTest ops b s).strengthMax = toFixed2 m) ∧
      (handleEndTest ops b s).strengthAvg =
        toFixed2 (ops.div ((relevantStrengthPoints s).foldl (fun acc val => ops.add acc val) 0)
          (relevantStrengthPoints s).length)) ∧
    (bufferInWindow s →
      relevantStrengthPoints s = s.strengthTestData.map (fun p => p.value)) ∧
    (∀ x : ℚ, ∃ n : ℤ, toFixed2 x = (n : ℚ) / 100 ∧ |toFixed2 x - x| ≤ 1 / 200) := by
  refine ⟨?_, ?_, relevant_eq_all s, toFixed2_spec⟩
  · intro h
    rw [handleEndTest_strengthMax, handleEndTest_strengthAvg, h]
    simp only [List.length_nil, lt_irrefl, if_false, toFixed2_zero, and_self]
  · intro h
    have hlen : 0 < (relevantStrengthPoints s).length := List.length_pos.mpr h
    have hm := mathMax_spec _ h
    refine ⟨⟨mathMax (relevantStrengthPoints s), hm.1, hm.2, ?_⟩, ?_⟩
    · rw [handleEndTest_strengthMax, if_pos hlen]
    · rw [handleEndTest_strengthAvg, if_pos hlen]

/-- C2: the ROM that `handleEndTest` passes to `updateResults` is `maxRomValue`
when it is non-null, otherwise the live ROM value when that is non-null,
otherwise 90; a session from the initial state with no live ROM value in which no
capture is started and no ROM value arrives reports rom = 90, max = 0, avg = 0. -/
theorem handleEndTest_rom (ops : NumOps) (b : Bool) :
    (∀ s : State,
      (∀ m, s.maxRomValue = some m → (handleEndTest ops b s).rom = m) ∧
      (s.maxRomValue = none → ∀ v, s.liveRomValue = some v →
        (handleEndTest ops b s).rom = v) ∧
      (s.maxRomValue = none → s.liveRomValue = none → (handleEndTest ops b s).rom = 90)) ∧
    (∀ evs : List (Int × Event), (∀ e ∈ evs, quiet e.2 = true) →
      (handleEndTest ops b (run (initialState none) evs)).rom = 90 ∧
      (handleEndTest ops b (run (initialState none) evs)).strengthMax = 0 ∧
      (handleEndTest ops b (run (initialState none) evs)).strengthAvg = 0 ∧
      (handleEndTest ops b (run (initialState none) evs)).samples = []) := by
  constructor
  · intro s
    refine ⟨?_, ?_, ?_⟩
    · intro m hm; simp [handleEndTest, hm]
    · intro hm v hv; simp [handleEndTest, hm, hv]
    · intro hm hv; simp [handleEndTest, hm, hv]
  · intro evs hq
    obtain ⟨h1, h2, h3, _⟩ := idle_run evs hq
    have hrel := relevant_of_empty _ h1
    refine ⟨by simp [handleEndTest, h2, h3], ?_, ?_, by simp [handleEndTest, h1]⟩
    · rw [handleEndTest_strengthMax, hrel]
      simp only [List.length_nil, lt_irrefl, if_false, toFixed2_zero]
    · rw [handleEndTest_strengthAvg, hrel]
      simp only [List.length_nil, lt_irrefl, if_false, toFixed2_zero]

/-- Witness for `handleEndTest_rom`: four clicks and deliveries without a capture
and without a ROM value. -/
theorem handleEndTest_rom_witness :
    (handleEndTest exactOps false (run (initialState none)
        [(0, .nextStep), (5, .force [⟨5, 3⟩]), (10, .nextStep), (20, .angle none)])).rom = 90 ∧
    (handleEndTest exactOps false (run (initialState none)
        [(0, .nextStep), (5, .force [⟨5, 3⟩]), (10, .nextStep), (20, .angle none)])).strengthMax
      = 0 :=
  ⟨((handleEndTest_rom exactOps false).2 _ (by decide)).1,
    ((handleEndTest_rom exactOps false).2 _ (by decide)).2.1⟩

/-! ## The capture buffer -/

theorem forceEffect_data (s : State) :
    (forceEffect s).strengthTestData =
      if s.strengthTestActive = true then
        (s.liveForceDataPoints.map markRelevant).foldl
          (capturePoint s.strengthTestStartTime s.strengthTestEndTime) s.strengthTestData
      else s.strengthTestData := by
  unfold forceEffect
  split_ifs <;> rfl

/-- C4: a force point whose timestamp is below `strengthTestStartTime` or above
`strengthTestEndTime` is not appended by the force capture effect: the buffer
holds it after the effect exactly as often as before (for a sample delivered in
the live array, and for any other point). -/
theorem forceEffect_skips_outside (s : State) (p : ForcePoint)
    (h : p.timestamp < refNum s.strengthTestStartTime ∨
      refNum s.strengthTestEndTime < p.timestamp) :
    (forceEffect s).strengthTestData.count p = s.strengthTestData.count p := by
  rw [forceEffect_data]
  split_ifs with ha
  · obtain ⟨added, hadd, hin⟩ := capture_append s.strengthTestStartTime s.strengthTestEndTime
      (s.liveForceDataPoints.map markRelevant) s.strengthTestData
    rw [hadd, List.count_append]
    have hnot : p ∉ added := by
      intro hp
      have hw := (hin p hp).2
      simp only [inWindow, Bool.and_eq_true, decide_eq_true_eq] at hw
      rcases h with h | h
      · exact absurd hw.1 (not_le.mpr h)
      · exact absurd hw.2 (not_le.mpr h)
    rw [List.count_eq_zero_of_not_mem hnot, Nat.add_zero]
  · rfl

/-- Witness for `forceEffect_skips_outside`: an active capture with window
[1000, 4000] and a delivered sample stamped 4001. -/
theorem forceEffect_skips_outside_witness :
    (4000 : Int) < (markRelevant ⟨4001, 7⟩).timestamp ∧
    (forceEffect (next (next (initialState none) (1000, .startStrength 1000))
        (1500, .force [⟨4001, 7⟩]))).strengthTestData.count (markRelevant ⟨4001, 7⟩) = 0 := by
  refine ⟨by decide, ?_⟩
  rw [forceEffect_skips_outside _ _ (by right; decide!)]
  decide!

/-- The buffered timestamps stay pairwise distinct along every session. -/
theorem nodup_run (s : State) (evs : List (Int × Event))
    (hs : (timestamps s.strengthTestData).Nodup) :
    (timestamps (run s evs).strengthTestData).Nodup := by
  apply run_preserves (fun s => (timestamps s.strengthTestData).Nodup) (fun _ => True)
  · intro s h
    rw [(romEffect_frame s).2.2.2.2.1]; exact h
  · intro s h
    rw [forceEffect_data]
    split_ifs
    · exact capture_nodup _ _ _ _ h
    · exact h
  · intro now s h
    rw [(countdownEffect_frame now s).2.1]; exact h
  · intro now s e _ h
    cases e with
    | angle v => exact h
    | force pts => exact h
    | tick =>
      simp only [applyEvent, tick]
      split_ifs
      · exact h
      · exact h
    | nextStep =>
      simp only [applyEvent, handleNextStep]
      split_ifs <;> exact h
    | startStrength t1 => simp [applyEvent, startStrengthTestCountdown, timestamps]
  · exact hs
  · intro _ _; trivial

/-- C5: along every session from the initial state the capture buffer never holds
two points with the same timestamp, whatever their values; and the point the
force capture effect holds for a timestamp is the one already buffered,
otherwise the first point of the live array with that timestamp (when the
capture is active and the timestamp is inside the window). Delivering
{t:100,v:5} then {t:100,v:9} inside the window leaves only {t:100,v:5}. -/
theorem buffer_dedup_first_kept :
    (∀ (rom0 : Option ℚ) (evs : List (Int × Event)),
      (timestamps (run (initialState rom0) evs).strengthTestData).Nodup) ∧
    (∀ (s : State) (t : Int),
      (forceEffect s).strengthTestData.find? (fun ap => decide (ap.timestamp = t)) =
        match s.strengthTestData.find? (fun ap => decide (ap.timestamp = t)) with
        | some q => some q
        | none =>
          if s.strengthTestActive = true ∧
              inWindow s.strengthTestStartTime s.strengthTestEndTime t = true then
            (s.liveForceDataPoints.map markRelevant).find? (fun ap => decide (ap.timestamp = t))
          else none) ∧
    (run (initialState none)
        [(50, .startStrength 50), (100, .force [⟨100, 5⟩, ⟨100, 9⟩])]).strengthTestData
      = [⟨100, 5, true⟩] ∧
    (run (initialState none)
        [(50, .startStrength 50), (100, .force [⟨100, 5⟩]),
         (101, .force [⟨100, 9⟩])]).strengthTestData
      = [⟨100, 5, true⟩] := by
  refine ⟨?_, ?_, by decide!, by decide!⟩
  · intro rom0 evs
    exact nodup_run _ evs (by simp [initialState, timestamps])
  · intro s t
    rw [forceEffect_data]
    by_cases ha : s.strengthTestActive = true
    · rw [if_pos ha, capture_find]
      cases s.strengthTestData.find? (fun ap => decide (ap.timestamp = t)) with
      | some q => rfl
      | none => simp [ha]
    · rw [if_neg ha]
      cases s.strengthTestData.find? (fun ap => decide (ap.timestamp = t)) with
      | some q => rfl
      | none => simp [ha]

/-! ## The step button (`handleNextStep`) -/

/-- C6: an Advance trigger issued in step 3, also while a capture is in progress,
or in step 5 leaves the step and all other session state unchanged: in these
steps the page renders no button bound to `handleNextStep`, so no handler runs;
and in step 5 `handleNextStep` itself, with the effects that follow it, changes
nothing. -/
theorem advance_invalid_noop (s : State) (now : Int) :
    ((s.step = 3 ∨ s.step = 5) → dispatch s (now, Event.nextStep) = s) ∧
    (5 ≤ s.step → handleNextStep s = s ∧ next s (now, Event.nextStep) = s) := by
  constructor
  · intro h
    have hoff : offered s Event.nextStep = false := by
      simp only [offered, decide_eq_false_iff_not]
      omega
    simp only [dispatch, hoff, Bool.false_eq_true, if_false]
  · intro h
    have h1 : handleNextStep s = s := by
      unfold handleNextStep
      have e1 : s.step ≠ 1 := by omega
      have e2 : s.step ≠ 2 := by omega
      have e4 : s.step ≠ 4 := by omega
      have e5 : ¬ s.step < 5 := by omega
      simp [e1, e2, e4, e5]
    refine ⟨h1, ?_⟩
    simp [next, applyEvent, h1, settle, depsEqual]

/-- Witness for `advance_invalid_noop`: step 3 with a capture in progress after
two step clicks and a strength click, and step 5 at the end of the scenario of
the specification. -/
theorem advance_invalid_noop_witness :
    (run (initialState none)
      [(0, .nextStep), (1, .nextStep), (2, .startStrength 2)]).step = 3 ∧
    (run (initialState none)
      [(0, .nextStep), (1, .nextStep), (2, .startStrength 2)]).strengthTestActive = true ∧
    dispatch (run (initialState none) [(0, .nextStep), (1, .nextStep), (2, .startStrength 2)])
        (3, Event.nextStep)
      = run (initialState none) [(0, .nextStep), (1, .nextStep), (2, .startStrength 2)] ∧
    dispatch (run (initialState none) scenarioRun) (5000, Event.nextStep)
      = run (initialState none) scenarioRun :=
  ⟨by decide!, by decide!,
    (advance_invalid_noop _ 3).1 (Or.inl (by decide!)),
    (advance_invalid_noop _ 5000).1 (Or.inr (by decide!))⟩

/-! ## The countdown along a session -/

theorem commit_end (now : Int) (prev cur : State) :
    (commit now prev cur).strengthTestEndTime =
      if expires prev cur then some now else cur.strengthTestEndTime := by
  have hf := beforeCountdown_frame prev cur
  rw [commit_eq]
  unfold expires
  split_ifs with h1 h2 h3
  · exact absurd h1 h2.1
  · exact hf.2.2.2.2.2.1
  · rw [countdownEffect_end, hf.2.2.1, hf.2.1]; simp [h3.2]
  · rw [countdownEffect_end, hf.2.2.1, hf.2.1, hf.2.2.2.2.2.1]
    have : ¬(cur.strengthTestActive = true ∧ cur.timer = 0) := fun h => h3 ⟨h1, h⟩
    simp [this]

theorem commit_start (now : Int) (prev cur : State) :
    (commit now prev cur).strengthTestStartTime = cur.strengthTestStartTime := by
  have hf := beforeCountdown_frame prev cur
  rw [commit_eq]
  split_ifs
  · exact hf.2.2.2.2.1
  · rw [(countdownEffect_frame now _).2.2.1]; exact hf.2.2.2.2.1

theorem commit_interval (now : Int) (prev cur : State) :
    (commit now prev cur).intervalActive =
      if countdownDeps prev = countdownDeps cur then cur.intervalActive
      else decide (cur.strengthTestActive = true ∧ 0 < cur.timer) := by
  have hf := beforeCountdown_frame prev cur
  rw [commit_eq]
  split_ifs with h1
  · exact hf.2.2.2.2.2.2.2.2.2
  · rw [countdownEffect_interval, hf.2.2.1, hf.2.1]

/-- A commit ends settled when the render it starts from is settled or has its
countdown effect due with a non-negative timer. -/
theorem commit_settled (now : Int) (prev cur : State)
    (h1 : countdownDeps prev = countdownDeps cur → settled cur)
    (h2 : countdownDeps prev ≠ countdownDeps cur → cur.strengthTestActive = true → 0 ≤ cur.timer) :
    settled (commit now prev cur) := by
  have ha := commit_active now prev cur
  have ht := commit_timer now prev cur
  have hi := commit_interval now prev cur
  unfold settled
  by_cases hd : countdownDeps prev = countdownDeps cur
  · have hne : ¬ expires prev cur := fun h => h.1 hd
    rw [if_neg hne] at ha
    rw [if_pos hd] at hi
    rw [ha, ht, hi]
    exact h1 hd
  · rw [if_neg hd] at hi
    by_cases he : expires prev cur
    · rw [if_pos he] at ha
      rw [ha, hi]
      have : ¬ (0 < cur.timer) := by rw [he.2.2]; decide
      simp [this]
    · rw [if_neg he] at ha
      rw [ha, ht, hi]
      constructor
      · intro hact
        have hpos : 0 < cur.timer := by
          have h0 := h2 hd hact
          rcases lt_or_eq_of_le h0 with h | h
          · exact h
          · exact absurd ⟨hd, hact, h.symm⟩ he
        exact ⟨hpos, by simp [hact, hpos]⟩
      · intro h
        simp only [decide_eq_true_eq] at h
        exact h.1

/-- From a settled state the handlers leave a render that is settled or has its
countdown effect due with a non-negative timer. -/
theorem applyEvent_countdown (now : Int) (s : State) (e : Event) (hs : settled s) :
    (countdownDeps s = countdownDeps (applyEvent now s e) → settled (applyEvent now s e)) ∧
    ((applyEvent now s e).strengthTestActive = true → 0 ≤ (applyEvent now s e).timer) := by
  obtain ⟨hs1, hs2⟩ := hs
  cases e with
  | angle v => exact ⟨fun _ => ⟨hs1, hs2⟩, fun h => le_of_lt (hs1 h).1⟩
  | force pts => exact ⟨fun _ => ⟨hs1, hs2⟩, fun h => le_of_lt (hs1 h).1⟩
  | tick =>
    simp only [applyEvent, tick]
    by_cases hi : s.intervalActive = true
    · simp only [hi, if_true]
      constructor
      · intro hd
        simp only [countdownDeps, Prod.mk.injEq, true_and] at hd
        omega
      · intro _
        have := (hs1 (hs2 hi)).1
        show 0 ≤ s.timer - 1
        omega
    · simp only [hi]
      exact ⟨fun _ => ⟨hs1, hs2⟩, fun h => le_of_lt (hs1 h).1⟩
  | nextStep =>
    have hc : (handleNextStep s).strengthTestActive = s.strengthTestActive ∧
        (handleNextStep s).timer = s.timer ∧
        (handleNextStep s).intervalActive = s.intervalActive := by
      unfold handleNextStep
      split_ifs <;> simp
    simp only [applyEvent, settled, hc.1, hc.2.1, hc.2.2]
    exact ⟨fun _ => ⟨hs1, hs2⟩, fun h => le_of_lt (hs1 h).1⟩
  | startStrength t1 =>
    simp only [applyEvent, startStrengthTestCountdown, settled, countdownDeps, Prod.mk.injEq]
    constructor
    · rintro ⟨ha, _⟩
      exact ⟨fun _ => ⟨by decide, (hs1 ha).2⟩, fun _ => trivial⟩
    · intro _; decide

/-- Every event takes a settled state to a settled state. -/
theorem next_settled (s : State) (e : Int × Event) (hs : settled s) : settled (next s e) := by
  have hc := applyEvent_countdown e.1 s e.2 hs
  unfold next
  rcases settle_cases e.1 s (applyEvent e.1 s e.2) with ⟨h1, h⟩ | ⟨_, _, h⟩ | ⟨_, _, h⟩
  · rw [h]
    apply hc.1
    simp only [depsEqual, Bool.and_eq_true, decide_eq_true_eq] at h1
    exact h1.2
  · rw [h]
    exact commit_settled _ _ _ hc.1 (fun _ => hc.2)
  · rw [h]
    have hc1 := commit_settled e.1 s _ hc.1 (fun _ => hc.2)
    exact commit_settled _ _ _ (fun _ => hc1) (fun _ ha => le_of_lt (hc1.1 ha).1)

theorem settled_initial (rom0 : Option ℚ) : settled (initialState rom0) := by
  simp [settled, initialState]

theorem run_settled (s : State) (evs : List (Int × Event)) (hs : settled s) :
    settled (run s evs) := by
  induction evs generalizing s with
  | nil => exact hs
  | cons e evs ih => rw [run_cons]; exact ih _ (next_settled s e hs)

theorem commit_afterCountdown (now : Int) (prev cur : State)
    (h : expiring cur → countdownDeps prev ≠ countdownDeps cur) :
    afterCountdown now cur (commit now prev cur) := by
  have hiff : expires prev cur ↔ expiring cur :=
    ⟨fun he => ⟨he.2.1, he.2.2⟩, fun he => ⟨h he, he.1, he.2⟩⟩
  refine ⟨commit_timer now prev cur, ?_, ?_, ?_, commit_start now prev cur,
    commit_liveRom now prev cur⟩
  · rw [commit_active]; simp only [hiff]
  · rw [commit_step]; simp only [hiff]
  · rw [commit_end]; simp only [hiff]

/-- The commit after a commit keeps the countdown state. -/
theorem commit_commit_fields (now : Int) (prev cur : State) :
    (commit now cur (commit now prev cur)).timer = (commit now prev cur).timer ∧
    (commit now cur (commit now prev cur)).strengthTestActive
      = (commit now prev cur).strengthTestActive ∧
    (commit now cur (commit now prev cur)).step = (commit now prev cur).step ∧
    (commit now cur (commit now prev cur)).strengthTestEndTime
      = (commit now prev cur).strengthTestEndTime ∧
    (commit now cur (commit now prev cur)).strengthTestStartTime
      = (commit now prev cur).strengthTestStartTime ∧
    (commit now cur (commit now prev cur)).liveRomValue = (commit now prev cur).liveRomValue := by
  have hne := not_expires_after_commit now prev cur
  refine ⟨commit_timer _ _ _, ?_, ?_, ?_, commit_start _ _ _, commit_liveRom _ _ _⟩
  · rw [commit_active, if_neg hne]
  · rw [commit_step, if_neg hne]
  · rw [commit_end, if_neg hne]

/-- From a settled state, a render with the timer at zero under an active capture
has its countdown effect due. -/
theorem expiring_due (now : Int) (s : State) (e : Event) (hs : settled s)
    (he : expiring (applyEvent now s e)) :
    countdownDeps s ≠ countdownDeps (applyEvent now s e) := by
  intro hd
  have hset := (applyEvent_countdown now s e hs).1 hd
  have := (hset.1 he.1).1
  rw [he.2] at this
  exact absurd this (by decide)

/-- The countdown state after an event processed from a settled state. -/
theorem next_afterCountdown (s : State) (e : Int × Event) (hs : settled s) :
    afterCountdown e.1 (applyEvent e.1 s e.2) (next s e) := by
  have hdue := expiring_due e.1 s e.2 hs
  unfold next
  rcases settle_cases e.1 s (applyEvent e.1 s e.2) with ⟨h1, h⟩ | ⟨_, _, h⟩ | ⟨_, _, h⟩
  · rw [h]
    simp only [depsEqual, Bool.and_eq_true, decide_eq_true_eq] at h1
    have hne : ¬ expiring (applyEvent e.1 s e.2) := fun he => hdue he h1.2
    simp only [afterCountdown, hne, if_false, and_self]
  · rw [h]
    exact commit_afterCountdown _ _ _ hdue
  · rw [h]
    have h1 := commit_afterCountdown e.1 s _ hdue
    have h2 := commit_commit_fields e.1 s (applyEvent e.1 s e.2)
    unfold afterCountdown at h1 ⊢
    rw [h2.1, h2.2.1, h2.2.2.1, h2.2.2.2.1, h2.2.2.2.2.1, h2.2.2.2.2.2]
    exact h1

/-! ## Monotonicity of the step -/

theorem next_step_mono (s : State) (e : Int × Event) (hs : settled s)
    (hc : captureInStep3 s) (ho : offered s e.2 = true) :
    s.step ≤ (next s e).step ∧ captureInStep3 (next s e) := by
  obtain ⟨_, ha, hst, _, _, _⟩ := next_afterCountdown s e hs
  unfold captureInStep3 at hc ⊢
  rw [ha, hst]
  obtain ⟨now, ev⟩ := e
  cases ev with
  | angle v =>
    simp only [applyEvent, expiring]
    split_ifs with h
    · exact ⟨by rw [hc h.1]; decide, fun h => h.elim⟩
    · exact ⟨le_refl _, hc⟩
  | force pts =>
    simp only [applyEvent, expiring]
    split_ifs with h
    · exact ⟨by rw [hc h.1]; decide, fun h => h.elim⟩
    · exact ⟨le_refl _, hc⟩
  | tick =>
    have hf : (tick s).strengthTestActive = s.strengthTestActive ∧ (tick s).step = s.step := by
      unfold tick; split_ifs <;> simp
    simp only [applyEvent, expiring, hf.1, hf.2]
    split_ifs with h
    · exact ⟨by rw [hc h.1]; decide, fun h => h.elim⟩
    · exact ⟨le_refl _, hc⟩
  | nextStep =>
    simp only [offered, decide_eq_true_eq] at ho
    have hna : s.strengthTestActive ≠ true := by
      intro h
      have := hc h
      omega
    have hf : (handleNextStep s).strengthTestActive = s.strengthTestActive ∧
        s.step ≤ (handleNextStep s).step := by
      unfold handleNextStep
      split_ifs <;> simp <;> omega
    have hne : ¬ expiring (applyEvent now s .nextStep) := by
      intro h
      exact hna (hf.1 ▸ h.1)
    simp only [applyEvent] at hne ⊢
    rw [if_neg hne, if_neg hne]
    exact ⟨hf.2, fun h => absurd (hf.1 ▸ h) hna⟩
  | startStrength t1 =>
    simp only [offered, Bool.and_eq_true, decide_eq_true_eq] at ho
    have hne : ¬ expiring (applyEvent now s (.startStrength t1)) := by
      intro h
      have := h.2
      simp [applyEvent, startStrengthTestCountdown] at this
    simp only [hne, if_false, applyEvent, startStrengthTestCountdown]
    exact ⟨le_refl _, fun _ => ho.1⟩

/-- C10: along every sequence of events the page can receive from the initial
state, the clicks being those it offers (Advance by the step button in steps 1,
2 and 4, StartCapture by the strength button in step 3 while it is shown), with
any countdown callbacks, expiries and feed deliveries in between, the step
never decreases from one event to the next. -/
theorem step_monotone (rom0 : Option ℚ) (evs : List (Int × Event))
    (h : offeredRun (initialState rom0) evs = true) (k : Nat) (hk : k < evs.length) :
    (run (initialState rom0) (evs.take k)).step ≤
      (run (initialState rom0) (evs.take (k + 1))).step := by
  have key : ∀ (evs : List (Int × Event)) (s : State), settled s → captureInStep3 s →
      offeredRun s evs = true → ∀ k, k < evs.length →
      (run s (evs.take k)).step ≤ (run s (evs.take (k + 1))).step := by
    intro evs
    induction evs with
    | nil => intro s _ _ _ k hk; simp at hk
    | cons e evs ih =>
      intro s hs hc ho k hk
      simp only [offeredRun, Bool.and_eq_true] at ho
      have hm := next_step_mono s e hs hc ho.1
      cases k with
      | zero =>
        simp only [List.take_zero, List.take_succ_cons, List.take_zero, run_cons]
        exact hm.1
      | succ k =>
        simp only [List.take_succ_cons, run_cons]
        apply ih _ (next_settled s e hs) hm.2 ho.2
        simpa using hk
  exact key evs _ (settled_initial rom0) (by simp [captureInStep3, initialState]) h k hk

/-- Witness for `step_monotone`: the session of the specification's scenario at
its countdown expiry (event 12, step 3 to step 4). -/
theorem step_monotone_witness :
    offeredRun (initialState none) scenarioRun = true ∧
    (run (initialState none) (scenarioRun.take 11)).step ≤
      (run (initialState none) (scenarioRun.take (11 + 1))).step :=
  ⟨by decide!, step_monotone none scenarioRun (by decide!) 11 (by decide)⟩

/-! ## The countdown expiry happens once -/

theorem applyEvent_fields_of_not_tick (now : Int) (s : State) (e : Event)
    (hns : notStart e = true) (hnt : e ≠ Event.tick) :
    (applyEvent now s e).strengthTestActive = s.strengthTestActive ∧
    (applyEvent now s e).timer = s.timer := by
  cases e with
  | angle v => exact ⟨rfl, rfl⟩
  | force pts => exact ⟨rfl, rfl⟩
  | tick => exact absurd rfl hnt
  | nextStep =>
    simp only [applyEvent, handleNextStep]
    split_ifs <;> exact ⟨rfl, rfl⟩
  | startStrength t1 => simp [notStart] at hns

/-- How the capture flag and the timer move at an event other than a click on
the strength button, from a settled state. -/
theorem next_countdown_cases (s : State) (e : Int × Event) (hs : settled s)
    (hns : notStart e.2 = true) :
    (s.strengthTestActive = false → (next s e).strengthTestActive = false) ∧
    (s.strengthTestActive = true → e.2 ≠ Event.tick →
      (next s e).strengthTestActive = true ∧ (next s e).timer = s.timer) ∧
    (s.strengthTestActive = true → e.2 = Event.tick → s.timer = 1 →
      (next s e).strengthTestActive = false ∧ (next s e).step = 4 ∧
      (next s e).strengthTestEndTime = some e.1) ∧
    (s.strengthTestActive = true → e.2 = Event.tick → s.timer ≠ 1 →
      (next s e).strengthTestActive = true ∧ (next s e).timer = s.timer - 1) := by
  obtain ⟨ht, ha, hst, hen, _, _⟩ := next_afterCountdown s e hs
  obtain ⟨now, ev⟩ := e
  have htick : s.strengthTestActive = true →
      (applyEvent now s Event.tick).strengthTestActive = true ∧
      (applyEvent now s Event.tick).timer = s.timer - 1 := by
    intro hact
    have hi := (hs.1 hact).2
    simp [applyEvent, tick, hi, hact]
  refine ⟨?_, ?_, ?_, ?_⟩
  · intro hina
    rw [ha]
    split_ifs with h
    · rfl
    · by_cases hnt : ev = Event.tick
      · subst hnt
        have : (tick s).strengthTestActive = s.strengthTestActive := by
          unfold tick; split_ifs <;> rfl
        simp only [applyEvent, this, hina]
      · rw [(applyEvent_fields_of_not_tick now s ev hns hnt).1, hina]
  · intro hact hnt
    have hf := applyEvent_fields_of_not_tick now s ev hns hnt
    have hne : ¬ expiring (applyEvent now s ev) := by
      intro h
      have := (hs.1 hact).1
      rw [← hf.2, h.2] at this
      exact absurd this (by decide)
    rw [ha, ht, if_neg hne, hf.1, hf.2]
    exact ⟨hact, rfl⟩
  · intro hact htk h1
    simp only at htk
    subst htk
    have hf := htick hact
    have he : expiring (applyEvent now s Event.tick) := ⟨hf.1, by rw [hf.2, h1]; rfl⟩
    rw [ha, hst, hen, if_pos he, if_pos he, if_pos he]
    exact ⟨rfl, rfl, rfl⟩
  · intro hact htk h1
    simp only at htk
    subst htk
    have hf := htick hact
    have hne : ¬ expiring (applyEvent now s Event.tick) := by
      intro h
      have := h.2
      rw [hf.2] at this
      omega
    rw [ha, ht, if_neg hne, hf.1, hf.2]
    exact ⟨rfl, rfl⟩

theorem expiryCount_inactive (evs : List (Int × Event)) (s : State) (hs : settled s)
    (hina : s.strengthTestActive = false) (hns : ∀ e ∈ evs, notStart e.2 = true) :
    expiryCount s evs = 0 := by
  induction evs generalizing s with
  | nil => rfl
  | cons e evs ih =>
    have hc := next_countdown_cases s e hs (hns e (List.mem_cons_self _ _))
    simp only [expiryCount, hina, Bool.false_and, Bool.false_eq_true, if_false, zero_add]
    exact ih _ (next_settled s e hs) (hc.1 hina) (fun e1 h1 => hns e1 (List.mem_cons_of_mem _ h1))

/-- From an active capture, the expiry happens exactly once if the interval
fires as often as the timer counts, and not at all otherwise. -/
theorem expiryCount_active (evs : List (Int × Event)) (s : State) (hs : settled s)
    (hact : s.strengthTestActive = true) (hns : ∀ e ∈ evs, notStart e.2 = true) :
    expiryCount s evs = if s.timer ≤ (tickCount evs : Int) then 1 else 0 := by
  induction evs generalizing s with
  | nil =>
    have := (hs.1 hact).1
    simp only [expiryCount, tickCount, List.countP_nil, Nat.cast_zero]
    rw [if_neg (by omega)]
  | cons e evs ih =>
    have hc := next_countdown_cases s e hs (hns e (List.mem_cons_self _ _))
    have hns1 : ∀ e1 ∈ evs, notStart e1.2 = true :=
      fun e1 h1 => hns e1 (List.mem_cons_of_mem _ h1)
    have hs1 := next_settled s e hs
    have hpos := (hs.1 hact).1
    by_cases htk : e.2 = Event.tick
    · have hcount : tickCount (e :: evs) = tickCount evs + 1 := by
        simp [tickCount, List.countP_cons, htk]
      by_cases h1 : s.timer = 1
      · obtain ⟨hna, _, _⟩ := hc.2.2.1 hact htk h1
        simp only [expiryCount, hact, hna, Bool.not_false, Bool.and_self, if_true]
        rw [expiryCount_inactive evs _ hs1 hna hns1, hcount, if_pos (by push_cast; omega)]
      · obtain ⟨ha1, ht1⟩ := hc.2.2.2 hact htk h1
        simp only [expiryCount, hact, ha1, Bool.not_true, Bool.and_false, Bool.false_eq_true,
          if_false, zero_add]
        rw [ih _ hs1 ha1 hns1, ht1, hcount]
        push_cast
        by_cases hle : s.timer - 1 ≤ (tickCount evs : Int)
        · rw [if_pos hle, if_pos (by omega)]
        · rw [if_neg hle, if_neg (by omega)]
    · obtain ⟨ha1, ht1⟩ := hc.2.1 hact htk
      have hcount : tickCount (e :: evs) = tickCount evs := by
        simp [tickCount, List.countP_cons, htk]
      simp only [expiryCount, hact, ha1, Bool.not_true, Bool.and_false, Bool.false_eq_true,
        if_false, zero_add]
      rw [ih _ hs1 ha1 hns1, ht1, hcount]

theorem applyEvent_keeps_active (now : Int) (s : State) (e : Event)
    (h : s.strengthTestActive = true) : (applyEvent now s e).strengthTestActive = true := by
  cases e with
  | angle v => exact h
  | force pts => exact h
  | tick => simp only [applyEvent, tick]; split_ifs <;> exact h
  | nextStep => simp only [applyEvent, handleNextStep]; split_ifs <;> exact h
  | startStrength t1 => rfl

/-- After a click on the strength button the capture is active with the timer
at 3. -/
theorem next_start (s : State) (now t1 : Int) (hs : settled s) :
    (next s (now, .startStrength t1)).strengthTestActive = true ∧
    (next s (now, .startStrength t1)).timer = 3 := by
  obtain ⟨ht, ha, _⟩ := next_afterCountdown s (now, .startStrength t1) hs
  have hne : ¬ expiring (applyEvent now s (.startStrength t1)) := by
    intro h
    have := h.2
    simp [applyEvent, startStrengthTestCountdown] at this
  simp only at ht ha
  rw [ha, ht, if_neg hne]
  exact ⟨rfl, rfl⟩

theorem countdownEffect_idle (now : Int) (s : State) (h1 : s.strengthTestActive = false)
    (h2 : s.intervalActive = false) : countdownEffect now s = s := by
  cases s
  simp_all [countdownEffect]

/-- C7: after every click on the strength button, in any session from the initial
state, the events that follow (up to a further click on that button) contain
exactly one at which the countdown effect performs the transition if the
interval fires three times, and none before that; the transition sets the step
to 4, clears `strengthTestActive` and stores the clock reading as end time; and
whenever no capture is active, a run of the countdown effect or of the interval
callback leaves the state as it is. -/
theorem countdown_once (rom0 : Option ℚ) (pre : List (Int × Event)) (t0 t1 : Int)
    (evs : List (Int × Event)) (hns : ∀ e ∈ evs, notStart e.2 = true) :
    expiryCount (run (initialState rom0) (pre ++ [(t0, .startStrength t1)])) evs
      = (if 3 ≤ tickCount evs then 1 else 0) ∧
    (∀ e : Int × Event,
      (run (initialState rom0) pre).strengthTestActive = true →
      (next (run (initialState rom0) pre) e).strengthTestActive = false →
        (next (run (initialState rom0) pre) e).step = 4 ∧
        (next (run (initialState rom0) pre) e).strengthTestEndTime = some e.1) ∧
    ((run (initialState rom0) pre).strengthTestActive = false →
      ∀ now : Int,
        countdownEffect now (run (initialState rom0) pre) = run (initialState rom0) pre ∧
        tick (run (initialState rom0) pre) = run (initialState rom0) pre) := by
  have hs := run_settled _ pre (settled_initial rom0)
  refine ⟨?_, ?_, ?_⟩
  · rw [run_append]
    have hst := next_start (run (initialState rom0) pre) t0 t1 hs
    have hs1 := next_settled _ (t0, Event.startStrength t1) hs
    have h := expiryCount_active evs _ hs1 hst.1 hns
    have h3 := hst.2
    show expiryCount (next (run (initialState rom0) pre) (t0, Event.startStrength t1)) evs = _
    rw [h]
    split_ifs with a b b
    · rfl
    · rw [h3] at a; omega
    · rw [h3] at a; omega
    · rfl
  · intro e hact hnext
    obtain ⟨_, ha, hst, hen, _, _⟩ := next_afterCountdown _ e hs
    by_cases he : expiring (applyEvent e.1 (run (initialState rom0) pre) e.2)
    · rw [hst, hen, if_pos he, if_pos he]
      exact ⟨rfl, rfl⟩
    · rw [ha, if_neg he, applyEvent_keeps_active _ _ _ hact] at hnext
      exact Bool.noConfusion hnext
  · intro hina now
    have hi : (run (initialState rom0) pre).intervalActive = false := by
      cases h : (run (initialState rom0) pre).intervalActive with
      | false => rfl
      | true => rw [hs.2 h] at hina; exact Bool.noConfusion hina
    constructor
    · exact countdownEffect_idle now _ hina hi
    · unfold tick
      simp only [hi, Bool.false_eq_true, if_false]

/-- Witness for `countdown_once`: a capture started in step 3, followed by four
interval callbacks and a force delivery. -/
theorem countdown_once_witness :
    expiryCount (run (initialState none)
        ([(0, .nextStep), (1, .nextStep)] ++ [(1000, .startStrength 1000)]))
      [(2000, .tick), (2500, .force [⟨2500, 4⟩]), (3000, .tick), (4000, .tick), (5000, .tick)]
      = 1 :=
  (countdown_once none [(0, .nextStep), (1, .nextStep)] 1000 1000
    [(2000, .tick), (2500, .force [⟨2500, 4⟩]), (3000, .tick), (4000, .tick), (5000, .tick)]
    (by decide)).1

/-! ## Buffered samples and the interval in force -/

theorem applyEvent_buffer_of_notStart (now : Int) (s : State) (e : Event)
    (hns : notStart e = true) :
    (applyEvent now s e).strengthTestData = s.strengthTestData ∧
    (applyEvent now s e).strengthTestStartTime = s.strengthTestStartTime ∧
    (applyEvent now s e).strengthTestEndTime = s.strengthTestEndTime ∧
    (applyEvent now s e).strengthTestActive = s.strengthTestActive := by
  cases e with
  | angle v => exact ⟨rfl, rfl, rfl, rfl⟩
  | force pts => exact ⟨rfl, rfl, rfl, rfl⟩
  | tick => simp only [applyEvent, tick]; split_ifs <;> exact ⟨rfl, rfl, rfl, rfl⟩
  | nextStep => simp only [applyEvent, handleNextStep]; split_ifs <;> exact ⟨rfl, rfl, rfl, rfl⟩
  | startStrength t1 => simp [notStart] at hns

/-- The buffer stays inside the interval held by the refs across an event whose
clock reading, if the event ends the capture, is not below the scheduled end. -/
theorem next_bufferInWindow (s : State) (e : Int × Event) (hs : settled s)
    (hb : bufferInWindow s)
    (hclock : s.strengthTestActive = true → (next s e).strengthTestActive = false →
      refNum s.strengthTestEndTime ≤ e.1) :
    bufferInWindow (next s e) := by
  have hac := next_afterCountdown s e hs
  have key : bufferInWindow (next s e) ∧
      (expiring (next s e) → refNum (next s e).strengthTestEndTime ≤ e.1) := by
    apply next_preserves
      (fun s1 => bufferInWindow s1 ∧ (expiring s1 → refNum s1.strengthTestEndTime ≤ e.1))
    · intro s1 h
      have hf := romEffect_frame s1
      unfold bufferInWindow expiring at h ⊢
      rw [hf.2.2.2.2.1, hf.2.2.2.2.2.1, hf.2.2.2.2.2.2.1, hf.2.2.1, hf.2.1]
      exact h
    · intro s1 h
      have hf := forceEffect_frame s1
      unfold bufferInWindow expiring at h ⊢
      rw [hf.2.2.2.2.1, hf.2.2.2.2.2.1, hf.2.2.1, hf.2.1]
      refine ⟨?_, h.2⟩
      rw [forceEffect_data]
      split_ifs
      · obtain ⟨added, hadd, hin⟩ := capture_append s1.strengthTestStartTime
          s1.strengthTestEndTime (s1.liveForceDataPoints.map markRelevant) s1.strengthTestData
        rw [hadd]
        intro p hp
        rcases List.mem_append.mp hp with hp | hp
        · exact h.1 p hp
        · exact (hin p hp).2
      · exact h.1
    · intro s1 h
      have hf := countdownEffect_frame e.1 s1
      unfold bufferInWindow expiring at h ⊢
      rw [hf.2.1, hf.2.2.1, hf.1, countdownEffect_end, countdownEffect_active]
      by_cases hx : s1.strengthTestActive = true ∧ s1.timer = 0
      · rw [if_pos hx, if_pos hx]
        refine ⟨?_, fun h0 => Bool.noConfusion h0.1⟩
        intro p hp
        have hin := h.1 p hp
        have hle := h.2 hx
        simp only [inWindow, refNum, Option.getD_some, Bool.and_eq_true, decide_eq_true_eq]
          at hin ⊢
        exact ⟨hin.1, le_trans hin.2 hle⟩
      · rw [if_neg hx, if_neg hx]
        exact ⟨h.1, fun h0 => absurd h0 hx⟩
    · by_cases hst : notStart e.2 = true
      · have hf := applyEvent_buffer_of_notStart e.1 s e.2 hst
        constructor
        · unfold bufferInWindow
          rw [hf.1, hf.2.1, hf.2.2.1]
          exact hb
        · intro hx
          rw [hf.2.2.1]
          apply hclock (hf.2.2.2 ▸ hx.1)
          rw [hac.2.1, if_pos hx]
      · obtain ⟨now, ev⟩ := e
        cases ev with
        | startStrength t1 =>
          constructor
          · intro p hp
            simp [applyEvent, startStrengthTestCountdown] at hp
          · intro hx
            have := hx.2
            simp [applyEvent, startStrengthTestCountdown] at this
        | angle v => simp [notStart] at hst
        | force pts => simp [notStart] at hst
        | tick => simp [notStart] at hst
        | nextStep => simp [notStart] at hst
  exact key.1

theorem run_bufferInWindow (evs : List (Int × Event)) (s : State) (hs : settled s)
    (hb : bufferInWindow s) (hc : expiryClockOk s evs = true) :
    bufferInWindow (run s evs) := by
  induction evs generalizing s with
  | nil => exact hb
  | cons e evs ih =>
    simp only [expiryClockOk, Bool.and_eq_true] at hc
    rw [run_cons]
    apply ih _ (next_settled s e hs) _ hc.2
    apply next_bufferInWindow s e hs hb
    intro ha hn
    have h1 := hc.1
    rw [ha, hn] at h1
    simpa using h1

/-- C9 (as amended): in every session from the initial state in which each event
that ends a capture reads a clock value not below the end time scheduled for
it, every point of the samples list that `handleEndTest` passes to
`updateResults` is tagged `isRelevant = true`, that is, every buffered timestamp
lies in the interval held by the refs, also after the expiry has overwritten the
end time. -/
theorem samples_all_relevant (ops : NumOps) (rom0 : Option ℚ) (b : Bool)
    (evs : List (Int × Event)) (hc : expiryClockOk (initialState rom0) evs = true) :
    (∀ q ∈ (handleEndTest ops b (run (initialState rom0) evs)).samples,
      q.isRelevant = true) ∧
    bufferInWindow (run (initialState rom0) evs) := by
  have hb := run_bufferInWindow evs _ (settled_initial rom0)
    (by intro p hp; simp [initialState] at hp) hc
  refine ⟨?_, hb⟩
  intro q hq
  simp only [handleEndTest, List.mem_map] at hq
  obtain ⟨p, hp, rfl⟩ := hq
  exact hb p hp

/-- Witness for `samples_all_relevant`: the scenario of the specification, whose
expiry reads 4000, the scheduled end. -/
theorem samples_all_relevant_witness :
    expiryClockOk (initialState none) scenarioRun = true ∧
    bufferInWindow (run (initialState none) scenarioRun) :=
  ⟨by decide!, (samples_all_relevant exactOps none false scenarioRun (by decide!)).2⟩

/-- C9 counterexample: a session of offered clicks from the initial state whose
countdown expiry reads a clock value (3800) below the timestamp of a buffered
sample (3900); `handleEndTest` passes that sample tagged `isRelevant = false`. -/
theorem samples_all_relevant_counterexample :
    offeredRun (initialState none) clockBackRun = true ∧
    (run (initialState none) clockBackRun).step = 5 ∧
    (handleEndTest exactOps false (run (initialState none) clockBackRun)).samples
      = [⟨3900, 10, false⟩] := by
  decide!

/-! ## Starting the capture again -/

theorem restartInv_romEffect (t0 t1 : Int) (K : Sample → Prop) (s : State)
    (h : restartInv t0 t1 K s) : restartInv t0 t1 K (romEffect s) := by
  have hf := romEffect_frame s
  unfold restartInv at h ⊢
  rw [hf.2.2.1, hf.2.2.2.2.1, hf.2.2.2.2.2.1, hf.2.2.2.2.2.2.1, hf.2.2.2.2.2.2.2.2.1]
  exact h

theorem restartInv_forceEffect (t0 t1 : Int) (K : Sample → Prop) (s : State)
    (h : restartInv t0 t1 K s) : restartInv t0 t1 K (forceEffect s) := by
  have hf := forceEffect_frame s
  unfold restartInv at h ⊢
  rw [hf.2.2.1, hf.2.2.2.2.1, hf.2.2.2.2.2.1, hf.2.2.2.2.2.2.2.2.2.2.1]
  refine ⟨h.1, ?_, h.2.2⟩
  rw [forceEffect_data]
  split_ifs with ha
  · obtain ⟨added, hadd, hin⟩ := capture_append s.strengthTestStartTime
      s.strengthTestEndTime (s.liveForceDataPoints.map markRelevant) s.strengthTestData
    rw [hadd]
    intro q hq
    rcases List.mem_append.mp hq with hq | hq
    · exact h.2.1 q hq
    · obtain ⟨hmem, hw⟩ := hin q hq
      obtain ⟨hst, hen⟩ := h.1 ha
      rw [hst, hen] at hw
      simp only [inWindow, refNum, Option.getD_some, Bool.and_eq_true, decide_eq_true_eq] at hw
      obtain ⟨p, hp, hpq⟩ := List.mem_map.mp hmem
      exact ⟨hw.1, hw.2, p, h.2.2 p hp, hpq⟩
  · exact h.2.1

theorem restartInv_countdownEffect (t0 t1 now : Int) (K : Sample → Prop) (s : State)
    (h : restartInv t0 t1 K s) : restartInv t0 t1 K (countdownEffect now s) := by
  have hf := countdownEffect_frame now s
  unfold restartInv at h ⊢
  rw [hf.2.1, hf.2.2.1, hf.2.2.2.2.2.2.2.1, countdownEffect_active, countdownEffect_end]
  refine ⟨?_, h.2.1, h.2.2⟩
  by_cases hx : s.strengthTestActive = true ∧ s.timer = 0
  · rw [if_pos hx, if_pos hx]
    intro h0
    exact Bool.noConfusion h0
  · rw [if_neg hx, if_neg hx]
    exact h.1

theorem restartInv_applyEvent (t0 t1 now : Int) (K : Sample → Prop) (s : State) (e : Event)
    (hok : notStart e = true ∧ ∀ pts, e = Event.force pts → ∀ p ∈ pts, K p)
    (h : restartInv t0 t1 K s) : restartInv t0 t1 K (applyEvent now s e) := by
  cases e with
  | angle v => exact h
  | force pts => exact ⟨h.1, h.2.1, hok.2 pts rfl⟩
  | tick => simp only [applyEvent, tick]; split_ifs <;> exact h
  | nextStep => simp only [applyEvent, handleNextStep]; split_ifs <;> exact h
  | startStrength t => simp [notStart] at hok

/-- C8: an invocation of `startStrengthTestCountdown` (the second one of a
session, after any events `pre`) discards every buffered sample: the buffer is
empty after it; and when no further invocation follows, every sample in the
list that `handleEndTest` passes to `updateResults` has its timestamp in the
window of that invocation, [`t0`, `t1 + 3000`], and was observed by the capture
effect after the invocation: it is a point of the live force array current at
the invocation or of one delivered later. -/
theorem restart_discards (ops : NumOps) (rom0 : Option ℚ) (b : Bool)
    (pre post : List (Int × Event))
    (t0 t1 : Int) (hns : ∀ e ∈ post, notStart e.2 = true) :
    (startStrengthTestCountdown t0 t1 (run (initialState rom0) pre)).strengthTestData = [] ∧
    ∀ q ∈ (handleEndTest ops b
        (run (initialState rom0) (pre ++ (t0, Event.startStrength t1) :: post))).samples,
      t0 ≤ q.timestamp ∧ q.timestamp ≤ t1 + 3000 ∧
      ∃ p : Sample, p.timestamp = q.timestamp ∧ p.value = q.value ∧
        (p ∈ (run (initialState rom0) pre).liveForceDataPoints ∨
          ∃ e ∈ post, ∃ pts, e.2 = Event.force pts ∧ p ∈ pts) := by
  refine ⟨rfl, ?_⟩
  have hinv : restartInv t0 t1
      (fun p => p ∈ (run (initialState rom0) pre).liveForceDataPoints ∨
          ∃ e ∈ post, ∃ pts, e.2 = Event.force pts ∧ p ∈ pts)
      (run (initialState rom0) (pre ++ (t0, Event.startStrength t1) :: post)) := by
    rw [run_append, run_cons]
    apply run_preserves _
      (fun e => notStart e = true ∧ ∀ pts, e = Event.force pts → ∀ p ∈ pts,
        (p ∈ (run (initialState rom0) pre).liveForceDataPoints ∨
          ∃ e ∈ post, ∃ pts, e.2 = Event.force pts ∧ p ∈ pts))
      (restartInv_romEffect t0 t1 _) (restartInv_forceEffect t0 t1 _)
      (fun now => restartInv_countdownEffect t0 t1 now _)
      (fun now s e hok h => restartInv_applyEvent t0 t1 now _ s e hok h)
    · apply next_preserves _ _ _ (restartInv_romEffect t0 t1 _) (restartInv_forceEffect t0 t1 _)
        (restartInv_countdownEffect t0 t1 _ _)
      refine ⟨fun _ => ⟨rfl, rfl⟩, ?_, ?_⟩
      · intro q hq
        simp [applyEvent, startStrengthTestCountdown] at hq
      · intro p hp
        left
        exact hp
    · intro e he
      refine ⟨hns e he, ?_⟩
      intro pts hpts p hp
      right
      exact ⟨e, he, pts, hpts, hp⟩
  intro q hq
  simp only [handleEndTest, List.mem_map] at hq
  obtain ⟨q0, hq0, rfl⟩ := hq
  obtain ⟨h1, h2, p, hK, hpq⟩ := hinv.2.1 q0 hq0
  refine ⟨h1, h2, p, ?_, ?_, hK⟩
  · rw [← hpq]; rfl
  · rw [← hpq]; rfl

/-- Witness for `restart_discards`: a second invocation at 5000 after the session
`restartRun`, followed by a delivery and an interval callback; the sample of the
first window, still in the live array, is stamped outside the second window. -/
theorem restart_discards_witness :
    (run (initialState none) restartRun).strengthTestData = [⟨4000, 10, true⟩] ∧
    (handleEndTest exactOps false (run (initialState none)
      (restartRun ++ (5000, Event.startStrength 5000) ::
        [(5500, .force [⟨4000, 10⟩, ⟨5500, 8⟩]), (6000, .tick)]))).samples
      = [⟨5500, 8, true⟩] ∧
    (5000 : Int) ≤ (⟨5500, 8, true⟩ : ForcePoint).timestamp :=
  ⟨by decide!, by decide!,
    ((restart_discards exactOps none false restartRun
      [(5500, .force [⟨4000, 10⟩, ⟨5500, 8⟩]), (6000, .tick)] 5000 5000 (by decide)).2
        ⟨5500, 8, true⟩ (by decide!)).1⟩

/-! ## ROM tracking -/

theorem romEffect_max (s : State) :
    (romEffect s).maxRomValue = bumpSeen s.maxRomValue (seen s) := by
  unfold romEffect seen bumpSeen bump
  split
  · rename_i h
    rw [h]
    split_ifs <;> rfl
  · rename_i v h
    rw [h]
    dsimp only
    split_ifs <;> simp_all

theorem commit_max (now : Int) (prev cur : State) :
    (commit now prev cur).maxRomValue =
      if romDeps prev = romDeps cur then cur.maxRomValue else (romEffect cur).maxRomValue := by
  rw [commit_eq]
  have hb : (beforeCountdown prev cur).maxRomValue =
      if romDeps prev = romDeps cur then cur.maxRomValue else (romEffect cur).maxRomValue := by
    unfold beforeCountdown
    dsimp only
    have hf1 := (forceEffect_frame cur).2.2.2.2.2.2.2.1
    have hf2 := (forceEffect_frame (romEffect cur)).2.2.2.2.2.2.2.1
    by_cases h1 : romDeps prev = romDeps cur <;> by_cases h2 : forceDeps prev = forceDeps cur
    · simp only [h1, h2, if_true]
    · simp only [h1, h2, if_true, if_false, hf1]
    · simp only [h1, h2, if_true, if_false]
    · simp only [h1, h2, if_false, hf2]
  by_cases h : countdownDeps prev = countdownDeps cur
  · rw [if_pos h]; exact hb
  · rw [if_neg h, (countdownEffect_frame now _).2.2.2.2.1]; exact hb

theorem bumpSeen_idem (m o : Option ℚ) : bumpSeen (bumpSeen m o) o = bumpSeen m o := by
  cases o with
  | none => rfl
  | some v =>
    cases m with
    | none => simp [bumpSeen, bump]
    | some p => simp [bumpSeen, bump]

theorem seen_of_romDeps (s1 s2 : State) (h : romDeps s1 = romDeps s2) : seen s1 = seen s2 := by
  simp only [romDeps, Prod.mk.injEq] at h
  unfold seen
  rw [h.1, h.2.1]

/-- A commit keeps the value a render offers to the maximum, if it offers one. -/
theorem seen_commit (now : Int) (prev cur : State) :
    seen cur = none ∨ seen (commit now prev cur) = seen cur := by
  unfold seen
  rw [commit_liveRom, commit_step]
  by_cases hc : 2 ≤ cur.step ∧ cur.step ≤ 4
  · right
    rw [if_pos hc]
    split_ifs with h1 h2
    · rfl
    · exact absurd ⟨by decide, by decide⟩ h2
    · rfl
  · left
    rw [if_neg hc]

theorem applyEvent_max (now : Int) (s : State) (e : Event) :
    (applyEvent now s e).maxRomValue = s.maxRomValue := by
  cases e with
  | angle v => rfl
  | force pts => rfl
  | tick => simp only [applyEvent, tick]; split_ifs <;> rfl
  | nextStep => simp only [applyEvent, handleNextStep]; split_ifs <;> rfl
  | startStrength t1 => rfl

/-- The first commit after a handler, run from an accounted state, leaves the
maximum updated with the value of the handler's render. -/
theorem commit_max_accounted (now : Int) (s cur : State) (ha : accounted s)
    (hm : cur.maxRomValue = s.maxRomValue) :
    (commit now s cur).maxRomValue = bumpSeen s.maxRomValue (seen cur) := by
  rw [commit_max]
  by_cases h : romDeps s = romDeps cur
  · rw [if_pos h, hm, ← seen_of_romDeps s cur h]
    exact ha.symm
  · rw [if_neg h, romEffect_max, hm]

/-- Across an event the maximum is updated with the value current after it. -/
theorem next_max (s : State) (e : Int × Event) (ha : accounted s) :
    (next s e).maxRomValue = bumpSeen s.maxRomValue (seen (next s e)) := by
  have hm := applyEvent_max e.1 s e.2
  unfold next
  rcases settle_cases e.1 s (applyEvent e.1 s e.2) with ⟨h1, h⟩ | ⟨_, h2, h⟩ | ⟨_, _, h⟩
  · rw [h, hm]
    simp only [depsEqual, Bool.and_eq_true, decide_eq_true_eq] at h1
    rw [← seen_of_romDeps s _ h1.1.1]
    exact ha.symm
  · rw [h, commit_max_accounted e.1 s _ ha hm]
    simp only [depsEqual, Bool.and_eq_true, decide_eq_true_eq] at h2
    rw [seen_of_romDeps _ _ h2.1.1]
  · rw [h]
    have hc1 := commit_max_accounted e.1 s _ ha hm
    have hf := commit_commit_fields e.1 s (applyEvent e.1 s e.2)
    have hseen2 : seen (commit e.1 (applyEvent e.1 s e.2) (commit e.1 s (applyEvent e.1 s e.2)))
        = seen (commit e.1 s (applyEvent e.1 s e.2)) := by
      unfold seen
      rw [hf.2.2.1, hf.2.2.2.2.2]
    rw [hseen2, commit_max]
    rcases seen_commit e.1 s (applyEvent e.1 s e.2) with h0 | h0
    · have hc1b : (commit e.1 s (applyEvent e.1 s e.2)).maxRomValue = s.maxRomValue := by
        rw [hc1, h0]; rfl
      by_cases hd : romDeps (applyEvent e.1 s e.2) = romDeps (commit e.1 s (applyEvent e.1 s e.2))
      · rw [if_pos hd, hc1b, ← seen_of_romDeps _ _ hd, h0]; rfl
      · rw [if_neg hd, romEffect_max, hc1b]
    · by_cases hd : romDeps (applyEvent e.1 s e.2) = romDeps (commit e.1 s (applyEvent e.1 s e.2))
      · rw [if_pos hd, hc1, h0]
      · rw [if_neg hd, romEffect_max, hc1, h0, bumpSeen_idem]

theorem next_accounted (s : State) (e : Int × Event) (ha : accounted s) :
    accounted (next s e) := by
  unfold accounted
  rw [next_max s e ha, bumpSeen_idem]

theorem foldl_bump_some (xs : List ℚ) (a : ℚ) :
    xs.foldl bump (some a) = some (xs.foldl max a) := by
  induction xs generalizing a with
  | nil => rfl
  | cons x xs ih => rw [List.foldl_cons, List.foldl_cons]; exact ih (max a x)

theorem foldl_bump_none (xs : List ℚ) : xs.foldl bump none = listMax xs := by
  cases xs with
  | nil => rfl
  | cons x xs => rw [List.foldl_cons]; exact foldl_bump_some xs x

/-- Along a session the maximum is the fold of the updater over the values
current in steps 2 to 4. -/
theorem run_max (evs : List (Int × Event)) (s : State) (ha : accounted s) :
    (run s evs).maxRomValue = (romSeen s evs).foldl bump s.maxRomValue := by
  induction evs generalizing s with
  | nil => rfl
  | cons e evs ih =>
    rw [run_cons, ih _ (next_accounted s e ha), next_max s e ha]
    simp only [romSeen, List.foldl_append]
    cases seen (next s e) <;> rfl

theorem listMax_spec (xs : List ℚ) (m : ℚ) (h : listMax xs = some m) :
    m ∈ xs ∧ ∀ x ∈ xs, x ≤ m := by
  cases xs with
  | nil => simp [listMax] at h
  | cons a l =>
    simp only [listMax, Option.some.injEq] at h
    rw [← h]
    exact foldl_max_spec l a

/-- A value delivered in steps 2 to 4 is current after its delivery. -/
theorem romDelivered_subset (evs : List (Int × Event)) (s : State) (hs : settled s) :
    ∀ v ∈ romDelivered s evs, v ∈ romSeen s evs := by
  induction evs generalizing s with
  | nil => intro v hv; simp [romDelivered] at hv
  | cons e evs ih =>
    intro v hv
    simp only [romDelivered, romSeen, List.mem_append] at hv ⊢
    rcases hv with hv | hv
    · left
      obtain ⟨now, ev⟩ := e
      obtain ⟨_, _, hst, _, _, hl⟩ := next_afterCountdown s (now, ev) hs
      cases ev with
      | angle w =>
        cases w with
        | none => simp at hv
        | some w =>
          simp only at hv
          split_ifs at hv with hstep
          · simp only [List.mem_singleton] at hv
            subst hv
            have hstep2 : 2 ≤ (next s (now, Event.angle (some v))).step ∧
                (next s (now, Event.angle (some v))).step ≤ 4 := by
              rw [hst]
              simp only [applyEvent]
              split_ifs
              · exact ⟨by decide, by decide⟩
              · exact hstep
            unfold seen
            rw [if_pos hstep2, hl]
            simp [applyEvent]
          · simp at hv
      | force pts => simp at hv
      | tick => simp at hv
      | nextStep => simp at hv
      | startStrength t1 => simp at hv
    · right
      exact ih _ (next_settled s e hs) v hv

theorem listMax_eq_none (xs : List ℚ) : listMax xs = none ↔ xs = [] := by
  cases xs with
  | nil => simp [listMax]
  | cons a l => simp [listMax]

/-- Where the value current after an offered event in steps 2 to 4 comes from: it
is delivered by that event in steps 2 to 4, or the event is the step click of
step 1, or the value was already current in steps 2 to 4 before the event. -/
theorem seen_next_source (s : State) (e : Int × Event) (hs : settled s)
    (hc : captureInStep3 s) (ho : offered s e.2 = true) (v : ℚ)
    (hv : seen (next s e) = some v) :
    (e.2 = Event.angle (some v) ∧ 2 ≤ s.step ∧ s.step ≤ 4) ∨
    (s.step = 1 ∧ e.2 = Event.nextStep ∧ (next s e).liveRomValue = some v) ∨
    seen s = some v := by
  obtain ⟨_, _, hst, _, _, hl⟩ := next_afterCountdown s e hs
  have hrange : (2 ≤ (next s e).step ∧ (next s e).step ≤ 4) ∧
      (next s e).liveRomValue = some v := by
    unfold seen at hv
    by_cases h : 2 ≤ (next s e).step ∧ (next s e).step ≤ 4
    · rw [if_pos h] at hv; exact ⟨h, hv⟩
    · rw [if_neg h] at hv; exact absurd hv (by simp)
  obtain ⟨hr, hlive⟩ := hrange
  have hpos : s.strengthTestActive = true → 0 < s.timer := fun h => (hs.1 h).1
  obtain ⟨now, ev⟩ := e
  cases ev with
  | angle w =>
    have hne : ¬ expiring (applyEvent now s (Event.angle w)) := by
      intro hx
      have h1 := hpos hx.1
      have h2 : s.timer = 0 := hx.2
      omega
    rw [if_neg hne] at hst
    rw [hst] at hr
    rw [hl] at hlive
    left
    have hw : w = some v := hlive
    exact ⟨by rw [hw], hr⟩
  | force pts =>
    have hne : ¬ expiring (applyEvent now s (Event.force pts)) := by
      intro hx
      have h1 := hpos hx.1
      have h2 : s.timer = 0 := hx.2
      omega
    rw [if_neg hne] at hst
    rw [hst] at hr
    rw [hl] at hlive
    have hr2 : 2 ≤ s.step ∧ s.step ≤ 4 := hr
    have hlive2 : s.liveRomValue = some v := hlive
    right; right
    unfold seen
    rw [if_pos hr2]
    exact hlive2
  | tick =>
    have hf : (tick s).strengthTestActive = s.strengthTestActive ∧ (tick s).step = s.step ∧
        (tick s).liveRomValue = s.liveRomValue := by
      unfold tick; split_ifs <;> exact ⟨rfl, rfl, rfl⟩
    have hstep : 2 ≤ s.step ∧ s.step ≤ 4 := by
      by_cases hx : expiring (applyEvent now s Event.tick)
      · have hact : s.strengthTestActive = true := hf.1 ▸ hx.1
        rw [hc hact]
        exact ⟨by decide, by decide⟩
      · rw [if_neg hx] at hst
        rw [hst] at hr
        simp only [applyEvent, hf.2.1] at hr
        exact hr
    rw [hl] at hlive
    simp only [applyEvent, hf.2.2] at hlive
    right; right
    unfold seen
    rw [if_pos hstep]
    exact hlive
  | nextStep =>
    simp only [offered, decide_eq_true_eq] at ho
    have hna : s.strengthTestActive ≠ true := by
      intro h
      have := hc h
      omega
    have hf : (handleNextStep s).strengthTestActive = s.strengthTestActive ∧
        (handleNextStep s).liveRomValue = s.liveRomValue := by
      unfold handleNextStep
      split_ifs <;> exact ⟨rfl, rfl⟩
    have hne : ¬ expiring (applyEvent now s Event.nextStep) := by
      intro h
      exact hna (hf.1 ▸ h.1)
    rw [if_neg hne] at hst
    rcases ho with h1 | h2 | h4
    · right; left
      exact ⟨h1, rfl, hlive⟩
    · right; right
      rw [hl] at hlive
      simp only [applyEvent, hf.2] at hlive
      unfold seen
      rw [if_pos (by omega)]
      exact hlive
    · exfalso
      rw [hst] at hr
      simp only [applyEvent, handleNextStep] at hr
      have e1 : s.step ≠ 1 := by omega
      have e2 : s.step ≠ 2 := by omega
      simp [e1, e2, h4] at hr
  | startStrength t1 =>
    simp only [offered, Bool.and_eq_true, decide_eq_true_eq] at ho
    rw [hl] at hlive
    right; right
    unfold seen
    rw [if_pos (by omega)]
    exact hlive

/-- Every value current in steps 2 to 4 along an offered session was delivered in
those steps, or was current when the step became 2, or was current in those
steps at the start. -/
theorem romSeen_sources (evs : List (Int × Event)) (s : State) (hs : settled s)
    (hc : captureInStep3 s) (ho : offeredRun s evs = true) :
    ∀ v ∈ romSeen s evs, v ∈ romDelivered s evs ∨ v ∈ romEntered s evs ∨ seen s = some v := by
  induction evs generalizing s with
  | nil => intro v hv; simp [romSeen] at hv
  | cons e evs ih =>
    intro v hv
    simp only [offeredRun, Bool.and_eq_true] at ho
    have hm := next_step_mono s e hs hc ho.1
    have hhead : seen (next s e) = some v →
        v ∈ romDelivered s (e :: evs) ∨ v ∈ romEntered s (e :: evs) ∨ seen s = some v := by
      intro h
      rcases seen_next_source s e hs hc ho.1 v h with ⟨h1, h2⟩ | ⟨h1, h2, h3⟩ | h1
      · left
        simp only [romDelivered, List.mem_append]
        left
        rw [h1]
        simp [h2]
      · right; left
        simp only [romEntered, List.mem_append]
        left
        rw [if_pos ⟨h1, h2⟩, h3]
        simp
      · right; right
        exact h1
    simp only [romSeen, List.mem_append] at hv
    rcases hv with hv | hv
    · apply hhead
      cases hsn : seen (next s e) with
      | none => rw [hsn] at hv; simp at hv
      | some w =>
        rw [hsn] at hv
        simp only [Option.toList_some, List.mem_singleton] at hv
        rw [hv]
    · rcases ih _ (next_settled s e hs) hm.2 ho.2 v hv with h | h | h
      · left
        simp only [romDelivered, List.mem_append]
        right; exact h
      · right; left
        simp only [romEntered, List.mem_append]
        right; exact h
      · exact hhead h

/-- The value current when the step becomes 2 is current in steps 2 to 4. -/
theorem romEntered_subset (evs : List (Int × Event)) (s : State) (hs : settled s)
    (hc : captureInStep3 s) (ho : offeredRun s evs = true) :
    ∀ v ∈ romEntered s evs, v ∈ romSeen s evs := by
  induction evs generalizing s with
  | nil => intro v hv; simp [romEntered] at hv
  | cons e evs ih =>
    intro v hv
    simp only [offeredRun, Bool.and_eq_true] at ho
    have hm := next_step_mono s e hs hc ho.1
    simp only [romEntered, romSeen, List.mem_append] at hv ⊢
    rcases hv with hv | hv
    · left
      split_ifs at hv with h1
      · obtain ⟨_, _, hst, _, _, _⟩ := next_afterCountdown s e hs
        have hna : s.strengthTestActive ≠ true := by
          intro h
          have := hc h
          omega
        have hne : ¬ expiring (applyEvent e.1 s e.2) := by
          intro hx
          have := hx.1
          rw [h1.2] at this
          simp only [applyEvent, handleNextStep, h1.1, if_true] at this
          exact hna this
        rw [if_neg hne, h1.2] at hst
        simp only [applyEvent, handleNextStep, h1.1, if_true] at hst
        unfold seen
        rw [hst, if_pos ⟨by decide, by decide⟩]
        exact hv
      · simp at hv
    · right
      exact ih _ (next_settled s e hs) hm.2 ho.2 v hv

/-- C3 (as amended): after every session of offered events from the initial
state, `maxRomValue` is the true maximum, whatever the order of arrival, of
exactly these values: the angle values delivered while the step was 2, 3 or 4,
together with the live value current when the step becomes 2 (a value delivered
during step 1 and still current then is one of them); it is null when there is
no such value. For every session, offered or not, it is the maximum of the
values current while the step was 2, 3 or 4. -/
theorem maxRom_tracks (rom0 : Option ℚ) (evs : List (Int × Event)) :
    (run (initialState rom0) evs).maxRomValue = listMax (romSeen (initialState rom0) evs) ∧
    (∀ m, (run (initialState rom0) evs).maxRomValue = some m →
      m ∈ romSeen (initialState rom0) evs ∧ ∀ x ∈ romSeen (initialState rom0) evs, x ≤ m) ∧
    (∀ v ∈ romDelivered (initialState rom0) evs, v ∈ romSeen (initialState rom0) evs) ∧
    (offeredRun (initialState rom0) evs = true →
      (∀ v, v ∈ romSeen (initialState rom0) evs ↔
        (v ∈ romDelivered (initialState rom0) evs ∨ v ∈ romEntered (initialState rom0) evs)) ∧
      ((run (initialState rom0) evs).maxRomValue = none ↔
        ∀ v, ¬ (v ∈ romDelivered (initialState rom0) evs ∨
          v ∈ romEntered (initialState rom0) evs)) ∧
      (∀ m, (run (initialState rom0) evs).maxRomValue = some m →
        (m ∈ romDelivered (initialState rom0) evs ∨ m ∈ romEntered (initialState rom0) evs) ∧
        ∀ x, (x ∈ romDelivered (initialState rom0) evs ∨
          x ∈ romEntered (initialState rom0) evs) → x ≤ m)) := by
  have hacc : accounted (initialState rom0) := by
    simp [accounted, seen, initialState, bumpSeen]
  have hset := settled_initial rom0
  have hc3 : captureInStep3 (initialState rom0) := by simp [captureInStep3, initialState]
  have hseen0 : seen (initialState rom0) = none := by simp [seen, initialState]
  have hmax : (run (initialState rom0) evs).maxRomValue
      = listMax (romSeen (initialState rom0) evs) := by
    rw [run_max evs _ hacc]
    exact foldl_bump_none _
  have hspec : ∀ m, (run (initialState rom0) evs).maxRomValue = some m →
      m ∈ romSeen (initialState rom0) evs ∧ ∀ x ∈ romSeen (initialState rom0) evs, x ≤ m := by
    intro m hm
    rw [hmax] at hm
    exact listMax_spec _ m hm
  have hdel := romDelivered_subset evs _ hset
  refine ⟨hmax, hspec, hdel, ?_⟩
  intro ho
  have hiff : ∀ v, v ∈ romSeen (initialState rom0) evs ↔
      (v ∈ romDelivered (initialState rom0) evs ∨ v ∈ romEntered (initialState rom0) evs) := by
    intro v
    constructor
    · intro hv
      rcases romSeen_sources evs _ hset hc3 ho v hv with h | h | h
      · exact Or.inl h
      · exact Or.inr h
      · rw [hseen0] at h; exact absurd h (by simp)
    · rintro (h | h)
      · exact hdel v h
      · exact romEntered_subset evs _ hset hc3 ho v h
  refine ⟨hiff, ?_, ?_⟩
  · rw [hmax, listMax_eq_none]
    constructor
    · intro h v hv
      have := (hiff v).mpr hv
      rw [h] at this
      simp at this
    · intro h
      cases hL : romSeen (initialState rom0) evs with
      | nil => rfl
      | cons a l =>
        exfalso
        apply h a
        apply (hiff a).mp
        rw [hL]
        exact List.mem_cons_self _ _
  · intro m hm
    obtain ⟨h1, h2⟩ := hspec m hm
    exact ⟨(hiff m).mp h1, fun x hx => h2 x ((hiff x).mpr hx)⟩

/-- Witness for `maxRom_tracks`: on `carryRun` the delivered values are 50 and 70,
the value current at the click to step 2 is 100, and the maximum is 100. -/
theorem maxRom_tracks_witness :
    offeredRun (initialState none) carryRun = true ∧
    romDelivered (initialState none) carryRun = [50, 70] ∧
    romEntered (initialState none) carryRun = [100] ∧
    (run (initialState none) carryRun).maxRomValue = some 100 ∧
    ((100 : ℚ) ∈ romDelivered (initialState none) carryRun ∨
      (100 : ℚ) ∈ romEntered (initialState none) carryRun) :=
  ⟨by decide!, by decide!, by decide!, by decide!,
    (((maxRom_tracks none carryRun).2.2.2 (by decide!)).2.2 100 (by decide!)).1⟩

/-- C3 counterexample: in a session of offered events the value 100 is delivered
during step 1 and is still current when the step becomes 2; the only value
delivered in steps 2 to 4 is 50, and `maxRomValue` is 100. -/
theorem maxRom_tracks_counterexample :
    offeredRun (initialState none)
      [(0, .angle (some 100)), (1, .nextStep), (2, .angle (some 50))] = true ∧
    romDelivered (initialState none)
      [(0, .angle (some 100)), (1, .nextStep), (2, .angle (some 50))] = [50] ∧
    (run (initialState none)
      [(0, .angle (some 100)), (1, .nextStep), (2, .angle (some 50))]).maxRomValue
      = some 100 := by
  decide!

end MeasurementPage
